import Mathlib

/-!
# Shape_recognizer: border-point scan and shape decision tree

A shallow embedding of `recognizer.cpp`.

* `uint` values are natural numbers below `2 ^ 32`; every unsigned operation
  of the source is written with its reduction modulo `2 ^ 32`.
* The pixel buffer `data` is a list read at the row-major index
  `y * width + x`.
* The two nested `for` loops of `recognize_shape` are folds over
  `List.range height` and `List.range width`.
* Floating point is not interpreted: the operations the source applies to
  `float` values (`sqrt`, the conversion from an integer, `*`, `/`, `acos`,
  `==`) are the fields of a `FloatOps` record that `recognize_shape` takes as
  a parameter, so every theorem holds whatever the rounding is.
* `recognize_shape` returns `none` where the source returns `false`, and
  `some s` where it prints the shape `s` and returns `true`.
-/

namespace ShapeRecognizer

/-! ## Data model -/

/-- Point coordinates storage (`struct Point`, two `uint` fields). -/
structure Point where
  x : Nat
  y : Nat
  deriving DecidableEq, Repr

/-- Pixel color storage (`struct Pixel`, four `uint8_t` channels). -/
structure Pixel where
  r : Nat
  g : Nat
  b : Nat
  a : Nat
  deriving DecidableEq, Repr

/-- The default constructor `Pixel::Pixel()`. -/
def Pixel.zero : Pixel := ⟨0, 0, 0, 0⟩

/-- The constant `Pixel::White`. -/
def Pixel.White : Pixel := ⟨255, 255, 255, 255⟩

/-- The constant `Pixel::Black`. -/
def Pixel.Black : Pixel := ⟨0, 0, 0, 255⟩

/-- The private state of `class Shape_recognizer`. -/
structure Shape_recognizer where
  data : List Pixel
  width : Nat
  height : Nat
  empty : Bool

/-- The state built by the constructor `Shape_recognizer::Shape_recognizer()`. -/
def Shape_recognizer.new : Shape_recognizer := ⟨[], 0, 0, true⟩

/-- The modulus of `uint` arithmetic. -/
def UINT_MOD : Nat := 2 ^ 32

/-- A state left by a successful `read_image_from_file`: the flag `empty` is
cleared and `data` holds `width * height` pixels, a product that fits a
`uint`. -/
def Loaded (sr : Shape_recognizer) : Prop :=
  sr.empty = false ∧ sr.width < UINT_MOD ∧ sr.height < UINT_MOD ∧
    sr.width * sr.height < UINT_MOD ∧ sr.data.length = sr.width * sr.height

instance (sr : Shape_recognizer) : Decidable (Loaded sr) := by
  unfold Loaded; infer_instance

/-- `Shape_recognizer::get_pixel`: `data[y * width + x]` with the index
computed in `uint`. A read past the buffer has no defined value in the
source; here it yields `Pixel.zero`. -/
def get_pixel (sr : Shape_recognizer) (x y : Nat) : Pixel :=
  sr.data.getD ((y * sr.width + x) % UINT_MOD) Pixel.zero

/-- The test `get_pixel(x, y) == Pixel::Black` of the scan. -/
def foreground (sr : Shape_recognizer) (x y : Nat) : Prop :=
  get_pixel sr x y = Pixel.Black

instance (sr : Shape_recognizer) (x y : Nat) : Decidable (foreground sr x y) := by
  unfold foreground; infer_instance

/-! ## The scan for the four border points -/

/-- The four local variables `max_x`, `min_x`, `max_y`, `min_y` of
`recognize_shape`. -/
structure BorderPoints where
  max_x : Point
  min_x : Point
  max_y : Point
  min_y : Point
  deriving DecidableEq, Repr

/-- The initial values of the four border points. -/
def init_points (sr : Shape_recognizer) : BorderPoints :=
  { max_x := ⟨0, 0⟩
    min_x := ⟨sr.width, 0⟩
    max_y := ⟨0, 0⟩
    min_y := ⟨0, sr.height⟩ }

/-- The body of the inner loop at the cell `(x, y)`. -/
def scan_step (sr : Shape_recognizer) (bp : BorderPoints) (x y : Nat) : BorderPoints :=
  if get_pixel sr x y = Pixel.Black then
    { max_x := if x > bp.max_x.x then ⟨x, y⟩ else bp.max_x
      min_x := if x ≤ bp.min_x.x then ⟨x, y⟩ else bp.min_x
      max_y := if y ≥ bp.max_y.y then ⟨x, y⟩ else bp.max_y
      min_y := if y < bp.min_y.y then ⟨x, y⟩ else bp.min_y }
  else bp

/-- The inner loop `for (uint x = 0; x < width; ++x)` on the row `y`. -/
def scan_row (sr : Shape_recognizer) (bp : BorderPoints) (y : Nat) : BorderPoints :=
  (List.range sr.width).foldl (fun acc x => scan_step sr acc x y) bp

/-- The outer loop `for (uint y = 0; y < height; ++y)`: the border points
that `recognize_shape` hands to its decision tree. -/
def scan (sr : Shape_recognizer) : BorderPoints :=
  (List.range sr.height).foldl (scan_row sr) (init_points sr)

/-! ## Geometry -/

/-- Subtraction of two `uint` values. -/
def usub (a b : Nat) : Nat := (a + UINT_MOD - b) % UINT_MOD

/-- Multiplication of two `uint` values. -/
def umul (a b : Nat) : Nat := (a * b) % UINT_MOD

/-- Addition of two `uint` values. -/
def uadd (a b : Nat) : Nat := (a + b) % UINT_MOD

/-- The `uint` value to which `distance_between` applies `sqrt`:
`(p_2.x - p_1.x) * (p_2.x - p_1.x) + (p_2.y - p_1.y) * (p_2.y - p_1.y)`. -/
def distance_radicand (p_1 p_2 : Point) : Nat :=
  uadd (umul (usub p_2.x p_1.x) (usub p_2.x p_1.x))
       (umul (usub p_2.y p_1.y) (usub p_2.y p_1.y))

/-- The conversion of a `uint` to the `int` parameter of `abs` (two's
complement). -/
def to_int (u : Nat) : Int :=
  if u < 2 ^ 31 then (u : Int) else (u : Int) - (UINT_MOD : Int)

/-- The call `abs(a - b)` on two `uint` coordinates. -/
def abs_diff (a b : Nat) : Int := |to_int (usub a b)|

/-- The value `abs(..) * abs(..) + abs(..) * abs(..)` stored in a `uint`:
the scalar product at the vertex `o` of the edges towards `p` and `q`, as
`abs(p.x - o.x) * abs(q.x - o.x) + abs(p.y - o.y) * abs(q.y - o.y)`. The
source computes the products and the sum in `int`; as long as they stay
within `int` (`scalar_prod_defined`) the stored value is this one. Where
they overflow the source has no defined value; this definition then gives
the two's complement wraparound. -/
def scalar_prod (o p q : Point) : Nat :=
  ((abs_diff p.x o.x * abs_diff q.x o.x + abs_diff p.y o.y * abs_diff q.y o.y)
    % (UINT_MOD : Int)).toNat

/-- The greatest value of an `int`. -/
def INT_MAX : Int := 2 ^ 31 - 1

/-- The `int` arithmetic of `scalar_prod o p q` is defined in the source:
no argument of `abs` is the least `int`, and neither product nor their sum
exceeds `INT_MAX`. -/
def scalar_prod_defined (o p q : Point) : Prop :=
  abs_diff p.x o.x ≤ INT_MAX ∧ abs_diff q.x o.x ≤ INT_MAX ∧
  abs_diff p.y o.y ≤ INT_MAX ∧ abs_diff q.y o.y ≤ INT_MAX ∧
  abs_diff p.x o.x * abs_diff q.x o.x ≤ INT_MAX ∧
  abs_diff p.y o.y * abs_diff q.y o.y ≤ INT_MAX ∧
  abs_diff p.x o.x * abs_diff q.x o.x + abs_diff p.y o.y * abs_diff q.y o.y ≤ INT_MAX

instance (o p q : Point) : Decidable (scalar_prod_defined o p q) := by
  unfold scalar_prod_defined; infer_instance

/-- `Shape_recognizer::points_between`. -/
def points_between (_sr : Shape_recognizer) (_p_1 _p_2 : Point) : Bool := false

/-- The floating-point operations `recognize_shape` uses, on a carrier `F`
of `float` values. -/
structure FloatOps (F : Type) where
  /-- The conversion of an integer value to floating point. -/
  ofNat : Nat → F
  /-- The function `sqrt` applied to a `uint`, returned as `float`. -/
  sqrt : Nat → F
  mul : F → F → F
  div : F → F → F
  acos : F → F
  /-- The comparison `==`. -/
  eq : F → F → Bool

/-- `Shape_recognizer::distance_between`. -/
def distance_between {F : Type} (fl : FloatOps F) (p_1 p_2 : Point) : F :=
  fl.sqrt (distance_radicand p_1 p_2)

/-! ## The decision tree -/

/-- What `recognize_shape` prints before returning `true`. -/
inductive Shape (F : Type) where
  | Triangle (side_len a_angle b_angle : F)
  | Circle (radius : F)
  | Square (side : F)
  | Rectangle (x_side_len y_side_len : F)
  deriving DecidableEq, Repr

/-- The condition of the first `if`: some two of the four points are equal. -/
def some_pair_equal (bp : BorderPoints) : Prop :=
  bp.max_x = bp.min_x ∨ bp.max_x = bp.max_y ∨ bp.max_x = bp.min_y ∨
  bp.min_x = bp.max_y ∨ bp.min_x = bp.min_y ∨ bp.max_y = bp.min_y

instance (bp : BorderPoints) : Decidable (some_pair_equal bp) := by
  unfold some_pair_equal; infer_instance

/-- The three points the triangle branch measures: the two ends of the
side whose length is printed, then the third vertex. -/
def measured_points (bp : BorderPoints) : Point × Point × Point :=
  if bp.max_x ≠ bp.min_y then (bp.max_x, bp.min_y, bp.min_x)
  else (bp.max_x, bp.max_y, bp.min_x)

/-- The measurements of the triangle branch on the side `(p, q)` with third
vertex `m`: `side_len`, then `a_angle` at `p` and `b_angle` at `q`. -/
def triangle_of {F : Type} (fl : FloatOps F) (pts : Point × Point × Point) : Shape F :=
  let p := pts.1
  let q := pts.2.1
  let m := pts.2.2
  let side_len := distance_between fl p q
  let a_side_len := distance_between fl p m
  let b_side_len := distance_between fl q m
  let a_scalar_prod := scalar_prod p m q
  let b_scalar_prod := scalar_prod q m p
  Shape.Triangle side_len
    (fl.acos (fl.div (fl.ofNat a_scalar_prod) (fl.mul side_len a_side_len)))
    (fl.acos (fl.div (fl.ofNat b_scalar_prod) (fl.mul side_len b_side_len)))

/-- The decision tree of `recognize_shape` on the scanned border points. -/
def classify {F : Type} (fl : FloatOps F) (sr : Shape_recognizer) (bp : BorderPoints) :
    Option (Shape F) :=
  if some_pair_equal bp then
    some (triangle_of fl (measured_points bp))
  else if !points_between sr bp.max_x bp.max_y then
    some (Shape.Circle (fl.div (distance_between fl bp.min_x bp.max_x) (fl.ofNat 2)))
  else if fl.eq (distance_between fl bp.max_x bp.min_x)
                (distance_between fl bp.max_y bp.min_y) then
    let x_side_len := distance_between fl bp.min_y bp.max_x
    let y_side_len := distance_between fl bp.max_y bp.max_x
    if fl.eq x_side_len y_side_len then some (Shape.Square x_side_len)
    else some (Shape.Rectangle x_side_len y_side_len)
  else none

/-- `Shape_recognizer::recognize_shape`: `none` for `return false`, `some s`
for printing `s` and `return true`. -/
def recognize_shape {F : Type} (fl : FloatOps F) (sr : Shape_recognizer) :
    Option (Shape F) :=
  if sr.empty then none else classify fl sr (scan sr)

/-- Builds a loaded state of the given size from the set of its black
cells, every other cell being white. -/
def grid_of (w h : Nat) (black : Nat → Nat → Bool) : Shape_recognizer :=
  { data := (List.range (w * h)).map
      (fun i => if black (i % w) (i / w) then Pixel.Black else Pixel.White)
    width := w
    height := h
    empty := false }

/-- Floating-point operations read as expressions, for evaluating the
decision tree on concrete grids. -/
inductive FExpr where
  | ofNat (n : Nat)
  | sqrt (n : Nat)
  | mul (a b : FExpr)
  | div (a b : FExpr)
  | acos (a : FExpr)
  deriving DecidableEq, Repr

/-- The symbolic instance of `FloatOps`. -/
def symbolic : FloatOps FExpr :=
  { ofNat := FExpr.ofNat
    sqrt := FExpr.sqrt
    mul := FExpr.mul
    div := FExpr.div
    acos := FExpr.acos
    eq := fun a b => decide (a = b) }

/-! ## Notions the claims are stated with -/

/-- The cells the scan has visited when the inner loop is about to read the
column `X` of the row `Y`. -/
def visited (sr : Shape_recognizer) (Y X x y : Nat) : Prop :=
  x < sr.width ∧ (y < Y ∨ (y = Y ∧ x < X))

/-- The number of distinct values among the four border points. -/
def distinct_values (bp : BorderPoints) : Nat :=
  ([bp.max_x, bp.min_x, bp.max_y, bp.min_y].dedup).length

/-- The three points of a triple are pairwise distinct. -/
def pairwise_distinct (pts : Point × Point × Point) : Prop :=
  pts.1 ≠ pts.2.1 ∧ pts.1 ≠ pts.2.2 ∧ pts.2.1 ≠ pts.2.2

instance (pts : Point × Point × Point) : Decidable (pairwise_distinct pts) := by
  unfold pairwise_distinct; infer_instance

/-- The line-occupancy relation in the words of the specification: `q` lies
on the straight segment from `p_1` to `p_2` and is neither endpoint. -/
def spec_strictly_between (p_1 p_2 q : Point) : Prop :=
  ((q.x : Int) - p_1.x) * ((p_2.y : Int) - p_1.y) =
      ((q.y : Int) - p_1.y) * ((p_2.x : Int) - p_1.x) ∧
    min p_1.x p_2.x ≤ q.x ∧ q.x ≤ max p_1.x p_2.x ∧
    min p_1.y p_2.y ≤ q.y ∧ q.y ≤ max p_1.y p_2.y ∧
    q ≠ p_1 ∧ q ≠ p_2

instance (p_1 p_2 q : Point) : Decidable (spec_strictly_between p_1 p_2 q) := by
  unfold spec_strictly_between; infer_instance

/-! ## Concrete grids -/

/-- A 1 x 1 image whose only pixel is white. -/
def blank_1x1 : Shape_recognizer := grid_of 1 1 (fun _ _ => false)

/-- A 7 x 7 image holding the filled 5 x 5 block with corners `(1, 1)` and
`(5, 5)`. -/
def block_5x5 : Shape_recognizer :=
  grid_of 7 7 (fun x y => decide (1 ≤ x ∧ x ≤ 5 ∧ 1 ≤ y ∧ y ≤ 5))

/-- A 5 x 5 image holding the filled disk of radius 2 about `(2, 2)`. -/
def disk_r2 : Shape_recognizer :=
  grid_of 5 5 (fun x y => decide (((x : Int) - 2) ^ 2 + ((y : Int) - 2) ^ 2 ≤ 4))

/-- A 1 x 2 image: white at `(0, 0)`, black at `(0, 1)`. -/
def column_dot : Shape_recognizer := grid_of 1 2 (fun x y => x == 0 && y == 1)

/-- A 2 x 2 image: black at `(0, 1)` only. -/
def corner_dot : Shape_recognizer := grid_of 2 2 (fun x y => x == 0 && y == 1)

/-- A 1 x 1 image whose only pixel is black. -/
def black_1x1 : Shape_recognizer := grid_of 1 1 (fun _ _ => true)

/-- A 2 x 2 image, all black. -/
def black_2x2 : Shape_recognizer := grid_of 2 2 (fun _ _ => true)

/-- A 3 x 1 image, all black. -/
def black_row3 : Shape_recognizer := grid_of 3 1 (fun _ _ => true)

/-- A 3 x 2 image with black pixels at `(0, 0)`, `(2, 0)` and `(1, 1)`: a
triangle pointing down. -/
def down_triangle : Shape_recognizer :=
  grid_of 3 2 (fun x y => (x == 0 && y == 0) || (x == 2 && y == 0) || (x == 1 && y == 1))

/-- A 3 x 3 image with black pixels at `(1, 0)`, `(2, 1)` and `(0, 2)`. -/
def three_dots : Shape_recognizer :=
  grid_of 3 3 (fun x y => (x == 1 && y == 0) || (x == 2 && y == 1) || (x == 0 && y == 2))

/-! ## Indices, exact distances and further grids -/

/-- The index `y * width + x`, computed in `uint`, at which `get_pixel`
reads `data`. -/
def pixel_index (sr : Shape_recognizer) (x y : Nat) : Nat :=
  (y * sr.width + x) % UINT_MOD

/-- The indices of `data` that the two loops of the scan read through
`get_pixel`, in the order of the reads. -/
def scan_reads (sr : Shape_recognizer) : List Nat :=
  (List.range sr.height).flatMap
    (fun y => (List.range sr.width).map (fun x => pixel_index sr x y))

/-- The mathematical value `dx ^ 2 + dy ^ 2` of the specification, with
`dx` and `dy` the signed coordinate differences. -/
def exact_sq_dist (p_1 p_2 : Point) : Int :=
  ((p_2.x : Int) - p_1.x) ^ 2 + ((p_2.y : Int) - p_1.y) ^ 2

/-- The signed dot product at the vertex `o` of the edge vectors towards
`p` and `q`. -/
def signed_dot (o p q : Point) : Int :=
  ((p.x : Int) - o.x) * ((q.x : Int) - o.x) + ((p.y : Int) - o.y) * ((q.y : Int) - o.y)

/-- Both coordinates of a point fit a `uint`. -/
def fits_uint (p : Point) : Prop := p.x < UINT_MOD ∧ p.y < UINT_MOD

instance (p : Point) : Decidable (fits_uint p) := by
  unfold fits_uint; infer_instance

/-- A 5 x 4 image holding the filled rectangle with corners `(1, 1)` and
`(3, 2)`. -/
def rect_3x2 : Shape_recognizer :=
  grid_of 5 4 (fun x y => decide (1 ≤ x ∧ x ≤ 3 ∧ 1 ≤ y ∧ y ≤ 2))

/-- A 3 x 3 image whose only black pixel is `(1, 1)`. -/
def single_dot : Shape_recognizer := grid_of 3 3 (fun x y => x == 1 && y == 1)

/-- A 3 x 3 image with black pixels at `(2, 0)`, `(2, 2)`, `(0, 1)` and
`(0, 2)`. -/
def two_columns : Shape_recognizer :=
  grid_of 3 3 (fun x y => (x == 2 && y == 0) || (x == 2 && y == 2) ||
    (x == 0 && y == 1) || (x == 0 && y == 2))

/-- A 65537 x 2 image with black pixels at `(65535, 0)`, `(65536, 0)` and
`(0, 1)`. -/
def wide_triangle : Shape_recognizer :=
  grid_of 65537 2 (fun x y => (x == 65535 && y == 0) || (x == 65536 && y == 0) ||
    (x == 0 && y == 1))

/-! ## Invariants of the scan -/

theorem foldl_range_succ {α : Type} (f : α → Nat → α) (a : α) (n : Nat) :
    (List.range (n + 1)).foldl f a = f ((List.range n).foldl f a) n := by
  rw [List.range_succ, List.foldl_append]
  rfl

theorem visited_succ (sr : Shape_recognizer) {Y X : Nat} (hX : X < sr.width) (x y : Nat) :
    visited sr Y (X + 1) x y ↔ visited sr Y X x y ∨ (x = X ∧ y = Y) := by
  unfold visited
  constructor
  · rintro ⟨hx, h | ⟨h1, h2⟩⟩
    · exact Or.inl ⟨hx, Or.inl h⟩
    · rcases Nat.lt_succ_iff_lt_or_eq.mp h2 with h3 | h3
      · exact Or.inl ⟨hx, Or.inr ⟨h1, h3⟩⟩
      · exact Or.inr ⟨h3, h1⟩
  · rintro (⟨hx, h | ⟨h1, h2⟩⟩ | ⟨h1, h2⟩)
    · exact ⟨hx, Or.inl h⟩
    · exact ⟨hx, Or.inr ⟨h1, Nat.lt_succ_of_lt h2⟩⟩
    · subst h1; subst h2
      exact ⟨hX, Or.inr ⟨rfl, Nat.lt_succ_self _⟩⟩

theorem visited_row_end (sr : Shape_recognizer) (Y : Nat) :
    visited sr Y sr.width = visited sr (Y + 1) 0 := by
  funext x y
  apply propext
  unfold visited
  constructor
  · rintro ⟨hx, h | ⟨h1, _⟩⟩
    · exact ⟨hx, Or.inl (Nat.lt_succ_of_lt h)⟩
    · exact ⟨hx, Or.inl (by omega)⟩
  · rintro ⟨hx, h | ⟨_, h2⟩⟩
    · refine ⟨hx, ?_⟩
      rcases Nat.lt_succ_iff_lt_or_eq.mp h with h3 | h3
      · exact Or.inl h3
      · exact Or.inr ⟨h3, hx⟩
    · exact absurd h2 (Nat.not_lt_zero _)

theorem visited_all (sr : Shape_recognizer) (x y : Nat) :
    visited sr sr.height 0 x y ↔ x < sr.width ∧ y < sr.height := by
  unfold visited
  constructor
  · rintro ⟨hx, h | ⟨_, h2⟩⟩
    · exact ⟨hx, h⟩
    · exact absurd h2 (Nat.not_lt_zero _)
  · rintro ⟨hx, hy⟩
    exact ⟨hx, Or.inl hy⟩

theorem visited_row_le (sr : Shape_recognizer) {Y X x y : Nat} (h : visited sr Y X x y) :
    y ≤ Y := by
  rcases h with ⟨_, h | ⟨h, _⟩⟩ <;> omega

theorem not_visited_start (sr : Shape_recognizer) (x y : Nat) : ¬ visited sr 0 0 x y := by
  rintro ⟨_, h | ⟨_, h⟩⟩ <;> exact absurd h (Nat.not_lt_zero _)

/-- Induction along the scan: a property of the set of visited cells and of
the border points that holds before the first cell and is kept by the loop
body holds of the result for the whole grid. -/
theorem scan_induction (sr : Shape_recognizer)
    (J : (Nat → Nat → Prop) → BorderPoints → Prop)
    (h0 : J (visited sr 0 0) (init_points sr))
    (hstep : ∀ Y X bp, Y < sr.height → X < sr.width →
      J (visited sr Y X) bp → J (visited sr Y (X + 1)) (scan_step sr bp X Y)) :
    J (visited sr sr.height 0) (scan sr) := by
  have row : ∀ Y bp, Y < sr.height → J (visited sr Y 0) bp →
      ∀ n, n ≤ sr.width →
        J (visited sr Y n) ((List.range n).foldl (fun acc x => scan_step sr acc x Y) bp) := by
    intro Y bp hY hbp n
    induction n with
    | zero => intro _; simpa using hbp
    | succ k ih =>
      intro hk
      rw [foldl_range_succ]
      exact hstep Y k _ hY (by omega) (ih (by omega))
  have rows : ∀ n, n ≤ sr.height →
      J (visited sr n 0) ((List.range n).foldl (scan_row sr) (init_points sr)) := by
    intro n
    induction n with
    | zero => intro _; simpa using h0
    | succ k ih =>
      intro hk
      rw [foldl_range_succ, ← visited_row_end]
      exact row k _ (by omega) (ih (by omega)) sr.width (Nat.le_refl _)
  exact rows sr.height (Nat.le_refl _)

/-- After the scan, `max_x` bounds the `x` of every foreground cell of the
grid, and it is either still the initial `(0, 0)` or a foreground cell of the
grid, the one of least `y` among those with its `x`. -/
theorem scan_max_x (sr : Shape_recognizer) :
    (∀ x y, x < sr.width → y < sr.height → foreground sr x y → x ≤ (scan sr).max_x.x) ∧
    ((scan sr).max_x = ⟨0, 0⟩ ∨
      (((scan sr).max_x.x < sr.width ∧ (scan sr).max_x.y < sr.height) ∧
        foreground sr (scan sr).max_x.x (scan sr).max_x.y ∧
        ∀ x y, x < sr.width → y < sr.height → foreground sr x y →
          x = (scan sr).max_x.x → (scan sr).max_x.y ≤ y)) := by
  have key := scan_induction sr
    (fun S bp =>
      (∀ x y, S x y → foreground sr x y → x ≤ bp.max_x.x) ∧
      (bp.max_x = ⟨0, 0⟩ ∨
        (S bp.max_x.x bp.max_x.y ∧ foreground sr bp.max_x.x bp.max_x.y ∧
          ∀ x y, S x y → foreground sr x y → x = bp.max_x.x → bp.max_x.y ≤ y)))
    ⟨fun x y h => absurd h (not_visited_start sr x y), Or.inl rfl⟩
    (by
      intro Y X bp _ hX ⟨hmax, hpt⟩
      by_cases hfg : get_pixel sr X Y = Pixel.Black
      · by_cases hgt : X > bp.max_x.x
        · simp only [scan_step, hfg, hgt, if_true]
          refine ⟨?_, Or.inr ⟨?_, hfg, ?_⟩⟩
          · intro x y hv hf
            rcases (visited_succ sr hX x y).mp hv with h | ⟨h, _⟩
            · exact Nat.le_of_lt (Nat.lt_of_le_of_lt (hmax x y h hf) hgt)
            · exact Nat.le_of_eq h
          · exact (visited_succ sr hX X Y).mpr (Or.inr ⟨rfl, rfl⟩)
          · intro x y hv hf hx
            rcases (visited_succ sr hX x y).mp hv with h | ⟨_, h⟩
            · have hle := hmax x y h hf
              have hx2 : x = X := hx
              omega
            · exact Nat.le_of_eq h.symm
        · simp only [scan_step, hfg, hgt, if_true, if_false]
          refine ⟨?_, ?_⟩
          · intro x y hv hf
            rcases (visited_succ sr hX x y).mp hv with h | ⟨h, _⟩
            · exact hmax x y h hf
            · omega
          · rcases hpt with h0 | ⟨hv0, hf0, hmin⟩
            · exact Or.inl h0
            · refine Or.inr ⟨(visited_succ sr hX _ _).mpr (Or.inl hv0), hf0, ?_⟩
              intro x y hv hf hx
              rcases (visited_succ sr hX x y).mp hv with h | ⟨_, h⟩
              · exact hmin x y h hf hx
              · have := visited_row_le sr hv0
                omega
      · simp only [scan_step, hfg, if_false]
        refine ⟨?_, ?_⟩
        · intro x y hv hf
          rcases (visited_succ sr hX x y).mp hv with h | ⟨h1, h2⟩
          · exact hmax x y h hf
          · subst h1; subst h2
            exact absurd hf hfg
        · rcases hpt with h0 | ⟨hv0, hf0, hmin⟩
          · exact Or.inl h0
          · refine Or.inr ⟨(visited_succ sr hX _ _).mpr (Or.inl hv0), hf0, ?_⟩
            intro x y hv hf hx
            rcases (visited_succ sr hX x y).mp hv with h | ⟨h1, h2⟩
            · exact hmin x y h hf hx
            · subst h1; subst h2
              exact absurd hf hfg)
  obtain ⟨h1, h2⟩ := key
  refine ⟨fun x y hx hy hf => h1 x y ((visited_all sr x y).mpr ⟨hx, hy⟩) hf, ?_⟩
  rcases h2 with h | ⟨hv, hf, hmin⟩
  · exact Or.inl h
  · exact Or.inr ⟨(visited_all sr _ _).mp hv, hf,
      fun x y hx hy hf hxe => hmin x y ((visited_all sr x y).mpr ⟨hx, hy⟩) hf hxe⟩

/-- After the scan, `min_x` is either still the initial `(width, 0)`, the
grid having no foreground cell, or a foreground cell of the grid of least
`x`, the one of greatest `y` among those with its `x`. -/
theorem scan_min_x (sr : Shape_recognizer) :
    ((scan sr).min_x = ⟨sr.width, 0⟩ ∧
      ∀ x y, x < sr.width → y < sr.height → ¬ foreground sr x y) ∨
    (((scan sr).min_x.x < sr.width ∧ (scan sr).min_x.y < sr.height) ∧
      foreground sr (scan sr).min_x.x (scan sr).min_x.y ∧
      (∀ x y, x < sr.width → y < sr.height → foreground sr x y →
        (scan sr).min_x.x ≤ x) ∧
      ∀ x y, x < sr.width → y < sr.height → foreground sr x y →
        x = (scan sr).min_x.x → y ≤ (scan sr).min_x.y) := by
  have key := scan_induction sr
    (fun S bp =>
      (bp.min_x = ⟨sr.width, 0⟩ ∧ ∀ x y, S x y → ¬ foreground sr x y) ∨
      (S bp.min_x.x bp.min_x.y ∧ foreground sr bp.min_x.x bp.min_x.y ∧
        (∀ x y, S x y → foreground sr x y → bp.min_x.x ≤ x) ∧
        ∀ x y, S x y → foreground sr x y → x = bp.min_x.x → y ≤ bp.min_x.y))
    (Or.inl ⟨rfl, fun x y h => absurd h (not_visited_start sr x y)⟩)
    (by
      intro Y X bp _ hX hJ
      by_cases hfg : get_pixel sr X Y = Pixel.Black
      · by_cases hle : X ≤ bp.min_x.x
        · simp only [scan_step, hfg, hle, if_true]
          refine Or.inr ⟨(visited_succ sr hX X Y).mpr (Or.inr ⟨rfl, rfl⟩), hfg, ?_, ?_⟩
          · intro x y hv hf
            rcases (visited_succ sr hX x y).mp hv with h | ⟨h, _⟩
            · rcases hJ with ⟨_, hno⟩ | ⟨_, _, hmin, _⟩
              · exact absurd hf (hno x y h)
              · exact Nat.le_trans hle (hmin x y h hf)
            · exact Nat.le_of_eq h.symm
          · intro x y hv _ _
            exact visited_row_le sr hv
        · simp only [scan_step, hfg, hle, if_true, if_false]
          rcases hJ with ⟨h0, _⟩ | ⟨hv0, hf0, hmin, hties⟩
          · rw [h0] at hle
            exact absurd (Nat.le_of_lt hX) hle
          · refine Or.inr ⟨(visited_succ sr hX _ _).mpr (Or.inl hv0), hf0, ?_, ?_⟩
            · intro x y hv hf
              rcases (visited_succ sr hX x y).mp hv with h | ⟨h, _⟩
              · exact hmin x y h hf
              · omega
            · intro x y hv hf hx
              rcases (visited_succ sr hX x y).mp hv with h | ⟨h, _⟩
              · exact hties x y h hf hx
              · omega
      · simp only [scan_step, hfg, if_false]
        rcases hJ with ⟨h0, hno⟩ | ⟨hv0, hf0, hmin, hties⟩
        · refine Or.inl ⟨h0, ?_⟩
          intro x y hv hf
          rcases (visited_succ sr hX x y).mp hv with h | ⟨h1, h2⟩
          · exact hno x y h hf
          · subst h1; subst h2
            exact hfg hf
        · refine Or.inr ⟨(visited_succ sr hX _ _).mpr (Or.inl hv0), hf0, ?_, ?_⟩
          · intro x y hv hf
            rcases (visited_succ sr hX x y).mp hv with h | ⟨h1, h2⟩
            · exact hmin x y h hf
            · subst h1; subst h2
              exact absurd hf hfg
          · intro x y hv hf hx
            rcases (visited_succ sr hX x y).mp hv with h | ⟨h1, h2⟩
            · exact hties x y h hf hx
            · subst h1; subst h2
              exact absurd hf hfg)
  rcases key with ⟨h0, hno⟩ | ⟨hv, hf, hmin, hties⟩
  · exact Or.inl ⟨h0, fun x y hx hy => hno x y ((visited_all sr x y).mpr ⟨hx, hy⟩)⟩
  · exact Or.inr ⟨(visited_all sr _ _).mp hv, hf,
      fun x y hx hy hf2 => hmin x y ((visited_all sr x y).mpr ⟨hx, hy⟩) hf2,
      fun x y hx hy hf2 hxe => hties x y ((visited_all sr x y).mpr ⟨hx, hy⟩) hf2 hxe⟩

/-- After the scan, `max_y` is either still the initial `(0, 0)`, the grid
having no foreground cell, or the last foreground cell of the grid in scan
order. -/
theorem scan_max_y (sr : Shape_recognizer) :
    ((scan sr).max_y = ⟨0, 0⟩ ∧
      ∀ x y, x < sr.width → y < sr.height → ¬ foreground sr x y) ∨
    (((scan sr).max_y.x < sr.width ∧ (scan sr).max_y.y < sr.height) ∧
      foreground sr (scan sr).max_y.x (scan sr).max_y.y ∧
      ∀ x y, x < sr.width → y < sr.height → foreground sr x y →
        y < (scan sr).max_y.y ∨ (y = (scan sr).max_y.y ∧ x ≤ (scan sr).max_y.x)) := by
  have key := scan_induction sr
    (fun S bp =>
      (bp.max_y = ⟨0, 0⟩ ∧ ∀ x y, S x y → ¬ foreground sr x y) ∨
      (S bp.max_y.x bp.max_y.y ∧ foreground sr bp.max_y.x bp.max_y.y ∧
        ∀ x y, S x y → foreground sr x y →
          y < bp.max_y.y ∨ (y = bp.max_y.y ∧ x ≤ bp.max_y.x)))
    (Or.inl ⟨rfl, fun x y h => absurd h (not_visited_start sr x y)⟩)
    (by
      intro Y X bp _ hX hJ
      by_cases hfg : get_pixel sr X Y = Pixel.Black
      · have hge : Y ≥ bp.max_y.y := by
          rcases hJ with ⟨h0, _⟩ | ⟨hv0, _, _⟩
          · rw [h0]; exact Nat.zero_le _
          · exact visited_row_le sr hv0
        simp only [scan_step, hfg, hge, if_true]
        refine Or.inr ⟨(visited_succ sr hX X Y).mpr (Or.inr ⟨rfl, rfl⟩), hfg, ?_⟩
        intro x y hv _
        rcases hv with ⟨_, h | ⟨h1, h2⟩⟩
        · exact Or.inl h
        · exact Or.inr ⟨h1, Nat.le_of_lt_succ h2⟩
      · simp only [scan_step, hfg, if_false]
        rcases hJ with ⟨h0, hno⟩ | ⟨hv0, hf0, hlast⟩
        · refine Or.inl ⟨h0, ?_⟩
          intro x y hv hf
          rcases (visited_succ sr hX x y).mp hv with h | ⟨h1, h2⟩
          · exact hno x y h hf
          · subst h1; subst h2
            exact hfg hf
        · refine Or.inr ⟨(visited_succ sr hX _ _).mpr (Or.inl hv0), hf0, ?_⟩
          intro x y hv hf
          rcases (visited_succ sr hX x y).mp hv with h | ⟨h1, h2⟩
          · exact hlast x y h hf
          · subst h1; subst h2
            exact absurd hf hfg)
  rcases key with ⟨h0, hno⟩ | ⟨hv, hf, hlast⟩
  · exact Or.inl ⟨h0, fun x y hx hy => hno x y ((visited_all sr x y).mpr ⟨hx, hy⟩)⟩
  · exact Or.inr ⟨(visited_all sr _ _).mp hv, hf,
      fun x y hx hy hf2 => hlast x y ((visited_all sr x y).mpr ⟨hx, hy⟩) hf2⟩

/-- After the scan, `min_y` is either still the initial `(0, height)`, the
grid having no foreground cell, or the first foreground cell of the grid in
scan order. -/
theorem scan_min_y (sr : Shape_recognizer) :
    ((scan sr).min_y = ⟨0, sr.height⟩ ∧
      ∀ x y, x < sr.width → y < sr.height → ¬ foreground sr x y) ∨
    (((scan sr).min_y.x < sr.width ∧ (scan sr).min_y.y < sr.height) ∧
      foreground sr (scan sr).min_y.x (scan sr).min_y.y ∧
      ∀ x y, x < sr.width → y < sr.height → foreground sr x y →
        (scan sr).min_y.y < y ∨ (y = (scan sr).min_y.y ∧ (scan sr).min_y.x ≤ x)) := by
  have key := scan_induction sr
    (fun S bp =>
      (bp.min_y = ⟨0, sr.height⟩ ∧ ∀ x y, S x y → ¬ foreground sr x y) ∨
      (S bp.min_y.x bp.min_y.y ∧ foreground sr bp.min_y.x bp.min_y.y ∧
        ∀ x y, S x y → foreground sr x y →
          bp.min_y.y < y ∨ (y = bp.min_y.y ∧ bp.min_y.x ≤ x)))
    (Or.inl ⟨rfl, fun x y h => absurd h (not_visited_start sr x y)⟩)
    (by
      intro Y X bp hY hX hJ
      by_cases hfg : get_pixel sr X Y = Pixel.Black
      · rcases hJ with ⟨h0, hno⟩ | ⟨hv0, hf0, hfirst⟩
        · have hlt : Y < bp.min_y.y := by rw [h0]; exact hY
          simp only [scan_step, hfg, hlt, if_true]
          refine Or.inr ⟨(visited_succ sr hX X Y).mpr (Or.inr ⟨rfl, rfl⟩), hfg, ?_⟩
          intro x y hv hf
          rcases (visited_succ sr hX x y).mp hv with h | ⟨h1, h2⟩
          · exact absurd hf (hno x y h)
          · exact Or.inr ⟨h2, Nat.le_of_eq h1.symm⟩
        · have hnlt : ¬ Y < bp.min_y.y := Nat.not_lt.mpr (visited_row_le sr hv0)
          simp only [scan_step, hfg, hnlt, if_true, if_false]
          refine Or.inr ⟨(visited_succ sr hX _ _).mpr (Or.inl hv0), hf0, ?_⟩
          intro x y hv hf
          rcases (visited_succ sr hX x y).mp hv with h | ⟨h1, h2⟩
          · exact hfirst x y h hf
          · rcases hv0 with ⟨_, h3 | ⟨h3, h4⟩⟩
            · exact Or.inl (by omega)
            · exact Or.inr ⟨by omega, by omega⟩
      · simp only [scan_step, hfg, if_false]
        rcases hJ with ⟨h0, hno⟩ | ⟨hv0, hf0, hfirst⟩
        · refine Or.inl ⟨h0, ?_⟩
          intro x y hv hf
          rcases (visited_succ sr hX x y).mp hv with h | ⟨h1, h2⟩
          · exact hno x y h hf
          · subst h1; subst h2
            exact hfg hf
        · refine Or.inr ⟨(visited_succ sr hX _ _).mpr (Or.inl hv0), hf0, ?_⟩
          intro x y hv hf
          rcases (visited_succ sr hX x y).mp hv with h | ⟨h1, h2⟩
          · exact hfirst x y h hf
          · subst h1; subst h2
            exact absurd hf hfg)
  rcases key with ⟨h0, hno⟩ | ⟨hv, hf, hfirst⟩
  · exact Or.inl ⟨h0, fun x y hx hy => hno x y ((visited_all sr x y).mpr ⟨hx, hy⟩)⟩
  · exact Or.inr ⟨(visited_all sr _ _).mp hv, hf,
      fun x y hx hy hf2 => hfirst x y ((visited_all sr x y).mpr ⟨hx, hy⟩) hf2⟩

/-! ## Points, disks and the 32-bit arithmetic on small coordinates -/

theorem Point.eq_mk (p : Point) {a b : Nat} (hx : p.x = a) (hy : p.y = b) : p = ⟨a, b⟩ := by
  cases p
  simp only [Point.mk.injEq]
  exact ⟨hx, hy⟩

/-- A point of the closed disk of radius `R` about the origin whose first
coordinate is at least `R` is `(R, 0)`. -/
theorem disk_extreme (a b R : Int) (hR : 0 ≤ R) (ha : R ≤ a) (h : a ^ 2 + b ^ 2 ≤ R ^ 2) :
    a = R ∧ b = 0 := by
  have hb : b = 0 := by
    by_contra hne
    have : 0 < b ^ 2 := by positivity
    nlinarith
  subst hb
  refine ⟨?_, rfl⟩
  nlinarith

theorem disk_extreme_neg (a b R : Int) (hR : 0 ≤ R) (ha : a ≤ -R) (h : a ^ 2 + b ^ 2 ≤ R ^ 2) :
    a = -R ∧ b = 0 := by
  have := disk_extreme (-a) b R hR (by omega) (by simpa using h)
  exact ⟨by omega, this.2⟩

theorem usub_of_le {a b : Nat} (hb : b ≤ a) (ha : a < UINT_MOD) : usub a b = a - b := by
  unfold usub
  have : a + UINT_MOD - b = (a - b) + UINT_MOD := by omega
  rw [this, Nat.add_mod_right]
  exact Nat.mod_eq_of_lt (by omega)

theorem UINT_MOD_eq : UINT_MOD = 4294967296 := by norm_num [UINT_MOD]

theorem usub_of_lt {a b : Nat} (hab : a < b) (hb : b < UINT_MOD) :
    usub a b = UINT_MOD - (b - a) := by
  unfold usub
  have : a + UINT_MOD - b = UINT_MOD - (b - a) := by omega
  rw [this]
  exact Nat.mod_eq_of_lt (by omega)

/-- The square of a `uint` difference is the square of the distance between
the two values, reduced modulo `2 ^ 32`. -/
theorem umul_usub_self (a b : Nat) (ha : a < UINT_MOD) (hb : b < UINT_MOD) :
    umul (usub a b) (usub a b) = (((a : Int) - b).natAbs * ((a : Int) - b).natAbs) % UINT_MOD := by
  rcases Nat.lt_or_ge a b with hab | hab
  · have hn : ((a : Int) - b).natAbs = b - a := by omega
    rw [usub_of_lt hab hb, hn]
    unfold umul
    obtain ⟨d, hd⟩ : ∃ d, d = b - a := ⟨_, rfl⟩
    rw [← hd]
    have hdU : d ≤ UINT_MOD := by omega
    obtain ⟨e, he⟩ : ∃ e, UINT_MOD = d + e := ⟨UINT_MOD - d, by omega⟩
    have he2 : UINT_MOD - d = e := by omega
    rw [he2]
    have hz : ((e * e : Nat) : Int) = ((d * d : Nat) : Int) + (UINT_MOD : Int) * ((e : Int) - d) := by
      have : (UINT_MOD : Int) = (d : Int) + e := by exact_mod_cast he
      rw [this]; push_cast; ring
    have : ((e * e % UINT_MOD : Nat) : Int) = ((d * d % UINT_MOD : Nat) : Int) := by
      push_cast
      rw [show (e : Int) * e = (d : Int) * d + (UINT_MOD : Int) * ((e : Int) - d) by
        have := hz; push_cast at this; exact this]
      exact Int.add_mul_emod_self_left _ _ _
    exact_mod_cast this
  · have hn : ((a : Int) - b).natAbs = a - b := by omega
    rw [usub_of_le hab ha, hn]
    rfl

/-- With both values below `2 ^ 31`, `abs(a - b)` is the distance between
them. -/
theorem abs_diff_exact (a b : Nat) (ha : a < 2 ^ 31) (hb : b < 2 ^ 31) :
    abs_diff a b = |(a : Int) - b| := by
  have hU := UINT_MOD_eq
  unfold abs_diff to_int
  rcases Nat.lt_or_ge a b with hab | hab
  · rw [usub_of_lt hab (by omega)]
    have h1 : ¬ (UINT_MOD - (b - a) < 2 ^ 31) := by omega
    rw [if_neg h1]
    congr 1
    omega
  · rw [usub_of_le hab (by omega)]
    have h1 : a - b < 2 ^ 31 := by omega
    rw [if_pos h1]
    congr 1
    omega

/-- With all coordinates at most `2 ^ 15`, the radicand of `distance_between`
is the squared Euclidean distance. -/
theorem distance_radicand_exact (p q : Point)
    (hp : p.x ≤ 2 ^ 15 ∧ p.y ≤ 2 ^ 15) (hq : q.x ≤ 2 ^ 15 ∧ q.y ≤ 2 ^ 15) :
    (distance_radicand p q : Int) =
      ((q.x : Int) - p.x) ^ 2 + ((q.y : Int) - p.y) ^ 2 := by
  have hU := UINT_MOD_eq
  obtain ⟨hpx, hpy⟩ := hp
  obtain ⟨hqx, hqy⟩ := hq
  norm_num at hpx hpy hqx hqy
  unfold distance_radicand
  rw [umul_usub_self _ _ (by omega) (by omega), umul_usub_self _ _ (by omega) (by omega)]
  have bx : ((q.x : Int) - p.x).natAbs ≤ 32768 := by omega
  have by1 : ((q.y : Int) - p.y).natAbs ≤ 32768 := by omega
  have mx : ((q.x : Int) - p.x).natAbs * ((q.x : Int) - p.x).natAbs ≤ 32768 * 32768 :=
    Nat.mul_le_mul bx bx
  have my : ((q.y : Int) - p.y).natAbs * ((q.y : Int) - p.y).natAbs ≤ 32768 * 32768 :=
    Nat.mul_le_mul by1 by1
  have ex : ((q.x : Int) - p.x).natAbs * ((q.x : Int) - p.x).natAbs % UINT_MOD =
      ((q.x : Int) - p.x).natAbs * ((q.x : Int) - p.x).natAbs := Nat.mod_eq_of_lt (by omega)
  have ey : ((q.y : Int) - p.y).natAbs * ((q.y : Int) - p.y).natAbs % UINT_MOD =
      ((q.y : Int) - p.y).natAbs * ((q.y : Int) - p.y).natAbs := Nat.mod_eq_of_lt (by omega)
  unfold uadd
  rw [ex, ey, Nat.mod_eq_of_lt (by omega)]
  push_cast
  rw [abs_mul_abs_self, abs_mul_abs_self]
  ring

/-- With all coordinates at most `2 ^ 15`, the stored scalar product is the
sum of the products of the absolute coordinate differences. -/
theorem scalar_prod_exact (o p q : Point)
    (ho : o.x ≤ 2 ^ 15 ∧ o.y ≤ 2 ^ 15) (hp : p.x ≤ 2 ^ 15 ∧ p.y ≤ 2 ^ 15)
    (hq : q.x ≤ 2 ^ 15 ∧ q.y ≤ 2 ^ 15) :
    (scalar_prod o p q : Int) =
      |(p.x : Int) - o.x| * |(q.x : Int) - o.x| + |(p.y : Int) - o.y| * |(q.y : Int) - o.y| := by
  have hU := UINT_MOD_eq
  obtain ⟨hox, hoy⟩ := ho
  obtain ⟨hpx, hpy⟩ := hp
  obtain ⟨hqx, hqy⟩ := hq
  norm_num at hox hoy hpx hpy hqx hqy
  unfold scalar_prod
  rw [abs_diff_exact _ _ (by norm_num; omega) (by norm_num; omega),
    abs_diff_exact _ _ (by norm_num; omega) (by norm_num; omega),
    abs_diff_exact _ _ (by norm_num; omega) (by norm_num; omega),
    abs_diff_exact _ _ (by norm_num; omega) (by norm_num; omega)]
  have a1 : 0 ≤ |(p.x : Int) - o.x| := abs_nonneg _
  have a2 : 0 ≤ |(q.x : Int) - o.x| := abs_nonneg _
  have a3 : 0 ≤ |(p.y : Int) - o.y| := abs_nonneg _
  have a4 : 0 ≤ |(q.y : Int) - o.y| := abs_nonneg _
  have b1 : |(p.x : Int) - o.x| ≤ 32768 := by rw [abs_le]; omega
  have b2 : |(q.x : Int) - o.x| ≤ 32768 := by rw [abs_le]; omega
  have b3 : |(p.y : Int) - o.y| ≤ 32768 := by rw [abs_le]; omega
  have b4 : |(q.y : Int) - o.y| ≤ 32768 := by rw [abs_le]; omega
  have m1 : |(p.x : Int) - o.x| * |(q.x : Int) - o.x| ≤ 32768 * 32768 :=
    mul_le_mul b1 b2 a2 (by norm_num)
  have m2 : |(p.y : Int) - o.y| * |(q.y : Int) - o.y| ≤ 32768 * 32768 :=
    mul_le_mul b3 b4 a4 (by norm_num)
  have n1 : 0 ≤ |(p.x : Int) - o.x| * |(q.x : Int) - o.x| := mul_nonneg a1 a2
  have n2 : 0 ≤ |(p.y : Int) - o.y| * |(q.y : Int) - o.y| := mul_nonneg a3 a4
  rw [hU]
  rw [Int.emod_eq_of_lt (by omega) (by push_cast; omega)]
  exact Int.toNat_of_nonneg (by omega)

/-- The inequality of Cauchy and Schwarz for the scalar product of absolute
differences. -/
theorem abs_scalar_sq_le (a b c d : Int) :
    (|a| * |b| + |c| * |d|) ^ 2 ≤ (a ^ 2 + c ^ 2) * (b ^ 2 + d ^ 2) := by
  have h1 : |a| ^ 2 = a ^ 2 := sq_abs a
  have h2 : |b| ^ 2 = b ^ 2 := sq_abs b
  have h3 : |c| ^ 2 = c ^ 2 := sq_abs c
  have h4 : |d| ^ 2 = d ^ 2 := sq_abs d
  rw [← h1, ← h2, ← h3, ← h4]
  nlinarith [sq_nonneg (|a| * |d| - |c| * |b|)]

/-- The quotient of a natural number by the product of two square roots is
at most 1 when its square is at most the product of the radicands. -/
theorem quotient_le_one (s r1 r2 : Nat) (h : s ^ 2 ≤ r1 * r2) :
    (s : ℝ) / (Real.sqrt r1 * Real.sqrt r2) ≤ 1 := by
  have hs : (s : ℝ) ≤ Real.sqrt r1 * Real.sqrt r2 := by
    rw [← Real.sqrt_mul (Nat.cast_nonneg r1)]
    apply Real.le_sqrt_of_sq_le
    exact_mod_cast h
  have hnn : (0 : ℝ) ≤ Real.sqrt r1 * Real.sqrt r2 :=
    mul_nonneg (Real.sqrt_nonneg _) (Real.sqrt_nonneg _)
  exact div_le_one_of_le₀ hs hnn

theorem quotient_nonneg (s r1 r2 : Nat) :
    (0 : ℝ) ≤ (s : ℝ) / (Real.sqrt r1 * Real.sqrt r2) :=
  div_nonneg (Nat.cast_nonneg s) (mul_nonneg (Real.sqrt_nonneg _) (Real.sqrt_nonneg _))

/-- Every coordinate of a scanned border point is at most the matching
dimension of the grid. -/
theorem scan_coords_le (sr : Shape_recognizer) :
    ((scan sr).max_x.x ≤ sr.width ∧ (scan sr).max_x.y ≤ sr.height) ∧
    ((scan sr).min_x.x ≤ sr.width ∧ (scan sr).min_x.y ≤ sr.height) ∧
    ((scan sr).max_y.x ≤ sr.width ∧ (scan sr).max_y.y ≤ sr.height) ∧
    ((scan sr).min_y.x ≤ sr.width ∧ (scan sr).min_y.y ≤ sr.height) := by
  refine ⟨?_, ?_, ?_, ?_⟩
  · rcases (scan_max_x sr).2 with h | ⟨⟨hx, hy⟩, _⟩
    · rw [h]; exact ⟨Nat.zero_le _, Nat.zero_le _⟩
    · exact ⟨Nat.le_of_lt hx, Nat.le_of_lt hy⟩
  · rcases scan_min_x sr with ⟨h, _⟩ | ⟨⟨hx, hy⟩, _⟩
    · rw [h]; exact ⟨Nat.le_refl _, Nat.zero_le _⟩
    · exact ⟨Nat.le_of_lt hx, Nat.le_of_lt hy⟩
  · rcases scan_max_y sr with ⟨h, _⟩ | ⟨⟨hx, hy⟩, _⟩
    · rw [h]; exact ⟨Nat.zero_le _, Nat.zero_le _⟩
    · exact ⟨Nat.le_of_lt hx, Nat.le_of_lt hy⟩
  · rcases scan_min_y sr with ⟨h, _⟩ | ⟨⟨hx, hy⟩, _⟩
    · rw [h]; exact ⟨Nat.zero_le _, Nat.le_refl _⟩
    · exact ⟨Nat.le_of_lt hx, Nat.le_of_lt hy⟩

/-! ## The decision tree on concrete and general grids -/

/-- A grid without foreground cell leaves the four border points at their
initial values. -/
theorem scan_no_foreground (sr : Shape_recognizer)
    (hno : ∀ x, x < sr.width → ∀ y, y < sr.height → ¬ foreground sr x y) :
    scan sr = init_points sr := by
  have e1 : (scan sr).max_x = ⟨0, 0⟩ := by
    rcases (scan_max_x sr).2 with h | ⟨⟨hx, hy⟩, hf, _⟩
    · exact h
    · exact absurd hf (hno _ hx _ hy)
  have e2 : (scan sr).min_x = ⟨sr.width, 0⟩ := by
    rcases scan_min_x sr with ⟨h, _⟩ | ⟨⟨hx, hy⟩, hf, _⟩
    · exact h
    · exact absurd hf (hno _ hx _ hy)
  have e3 : (scan sr).max_y = ⟨0, 0⟩ := by
    rcases scan_max_y sr with ⟨h, _⟩ | ⟨⟨hx, hy⟩, hf, _⟩
    · exact h
    · exact absurd hf (hno _ hx _ hy)
  have e4 : (scan sr).min_y = ⟨0, sr.height⟩ := by
    rcases scan_min_y sr with ⟨h, _⟩ | ⟨⟨hx, hy⟩, hf, _⟩
    · exact h
    · exact absurd hf (hno _ hx _ hy)
  cases hs : scan sr with
  | mk a b c d =>
    rw [hs] at e1 e2 e3 e4
    simp only at e1 e2 e3 e4
    rw [e1, e2, e3, e4]
    rfl

/-- On a loaded grid of positive size without foreground cell,
`recognize_shape` prints a triangle measured on the initial values
`(0, 0)`, `(0, height)` and `(width, 0)`, and returns `true`. -/
theorem recognize_shape_no_foreground {F : Type} (fl : FloatOps F) (sr : Shape_recognizer)
    (hload : Loaded sr) (hh : 1 ≤ sr.height)
    (hno : ∀ x, x < sr.width → ∀ y, y < sr.height → ¬ foreground sr x y) :
    recognize_shape fl sr =
      some (triangle_of fl (⟨0, 0⟩, ⟨0, sr.height⟩, ⟨sr.width, 0⟩)) := by
  have hs := scan_no_foreground sr hno
  have hpair : some_pair_equal (init_points sr) := Or.inr (Or.inl rfl)
  have hne : (init_points sr).max_x ≠ (init_points sr).min_y := by
    simp only [init_points, ne_eq, Point.mk.injEq, true_and]
    omega
  simp only [recognize_shape, hload.1, hs, classify, hpair, measured_points, hne, if_true,
    Bool.false_eq_true, if_false, ne_eq, not_false_eq_true]
  rfl

/-- C1. The 1 x 1 image whose only pixel is white is loaded and has no
foreground pixel, yet `recognize_shape` does not return `false` on it: the
initial values `max_x = max_y = (0, 0)` coincide, so it prints a triangle
measured on `(0, 0)`, `(0, 1)` and `(1, 0)` and returns `true`. -/
theorem blank_image_recognized_as_triangle {F : Type} (fl : FloatOps F) :
    Loaded blank_1x1 ∧
    (∀ x, x < blank_1x1.width → ∀ y, y < blank_1x1.height → ¬ foreground blank_1x1 x y) ∧
    scan blank_1x1 = init_points blank_1x1 ∧
    recognize_shape fl blank_1x1 = some (triangle_of fl (⟨0, 0⟩, ⟨0, 1⟩, ⟨1, 0⟩)) ∧
    recognize_shape fl blank_1x1 ≠ none :=
  ⟨by decide, by decide, by decide, rfl, by
    have h : recognize_shape fl blank_1x1 = some (triangle_of fl (⟨0, 0⟩, ⟨0, 1⟩, ⟨1, 0⟩)) := rfl
    rw [h]
    exact Option.some_ne_none _⟩

/-- C2. On the 7 x 7 image whose foreground is the filled 5 x 5 block with
corners `(1, 1)`, `(5, 1)`, `(1, 5)`, `(5, 5)`, the four border points are
the four corners and `recognize_shape` prints a circle of radius
`sqrt 32 / 2`, not a square of side 4: `points_between` answers `false`, so
the square branch is never entered. -/
theorem square_block_recognized_as_circle {F : Type} (fl : FloatOps F) :
    Loaded block_5x5 ∧
    (∀ x, x < block_5x5.width → ∀ y, y < block_5x5.height →
      (foreground block_5x5 x y ↔ (1 ≤ x ∧ x ≤ 5 ∧ 1 ≤ y ∧ y ≤ 5))) ∧
    scan block_5x5 = ⟨⟨5, 1⟩, ⟨1, 5⟩, ⟨5, 5⟩, ⟨1, 1⟩⟩ ∧
    recognize_shape fl block_5x5 =
      some (Shape.Circle (fl.div (fl.sqrt 32) (fl.ofNat 2))) ∧
    recognize_shape fl block_5x5 ≠
      some (Shape.Square (distance_between fl ⟨1, 1⟩ ⟨5, 1⟩)) :=
  ⟨by decide, by decide, by decide, rfl, by
    have h : recognize_shape fl block_5x5 =
        some (Shape.Circle (fl.div (fl.sqrt 32) (fl.ofNat 2))) := rfl
    rw [h]
    intro hc
    cases hc⟩

/-- The border points of a filled disk. -/
theorem scan_disk (sr : Shape_recognizer) (R cx cy : Nat)
    (hR : 1 ≤ R) (hcx : R ≤ cx) (hcy : R ≤ cy)
    (hw : cx + R < sr.width) (hh : cy + R < sr.height)
    (hdisk : ∀ x, x < sr.width → ∀ y, y < sr.height →
      (foreground sr x y ↔ ((x : Int) - cx) ^ 2 + ((y : Int) - cy) ^ 2 ≤ (R : Int) ^ 2)) :
    scan sr = ⟨⟨cx + R, cy⟩, ⟨cx - R, cy⟩, ⟨cx, cy + R⟩, ⟨cx, cy - R⟩⟩ := by
  have hR0 : (0 : Int) ≤ (R : Int) := Int.ofNat_nonneg R
  have fE : foreground sr (cx + R) cy :=
    (hdisk _ hw _ (by omega)).mpr (by push_cast; ring_nf; exact le_refl _)
  have fW : foreground sr (cx - R) cy :=
    (hdisk _ (by omega) _ (by omega)).mpr (by
      rw [Nat.cast_sub hcx]; ring_nf; exact le_refl _)
  have fS : foreground sr cx (cy + R) :=
    (hdisk _ (by omega) _ hh).mpr (by push_cast; ring_nf; exact le_refl _)
  have fN : foreground sr cx (cy - R) :=
    (hdisk _ (by omega) _ (by omega)).mpr (by
      rw [Nat.cast_sub hcy]; ring_nf; exact le_refl _)
  have e1 : (scan sr).max_x = ⟨cx + R, cy⟩ := by
    obtain ⟨hmax, hpt⟩ := scan_max_x sr
    have hge := hmax _ _ hw (by omega) fE
    rcases hpt with h0 | ⟨⟨hx, hy⟩, hf, _⟩
    · rw [h0] at hge
      exact absurd hge (by simp only [Nat.le_zero_eq]; omega)
    · have hin := (hdisk _ hx _ hy).mp hf
      have := disk_extreme _ _ _ hR0 (by omega) hin
      exact Point.eq_mk _ (by omega) (by omega)
  have e2 : (scan sr).min_x = ⟨cx - R, cy⟩ := by
    rcases scan_min_x sr with ⟨_, hno⟩ | ⟨⟨hx, hy⟩, hf, hmin, _⟩
    · exact absurd fE (hno _ _ hw (by omega))
    · have hle := hmin _ _ (by omega) (by omega) fW
      have hin := (hdisk _ hx _ hy).mp hf
      have := disk_extreme_neg _ _ _ hR0 (by omega) hin
      exact Point.eq_mk _ (by omega) (by omega)
  have e3 : (scan sr).max_y = ⟨cx, cy + R⟩ := by
    rcases scan_max_y sr with ⟨_, hno⟩ | ⟨⟨hx, hy⟩, hf, hlast⟩
    · exact absurd fE (hno _ _ hw (by omega))
    · have hle := hlast _ _ (by omega) hh fS
      have hin := (hdisk _ hx _ hy).mp hf
      have := disk_extreme ((((scan sr).max_y.y : Nat) : Int) - cy)
        ((((scan sr).max_y.x : Nat) : Int) - cx) _ hR0 (by omega) (by linarith)
      exact Point.eq_mk _ (by omega) (by omega)
  have e4 : (scan sr).min_y = ⟨cx, cy - R⟩ := by
    rcases scan_min_y sr with ⟨_, hno⟩ | ⟨⟨hx, hy⟩, hf, hfirst⟩
    · exact absurd fE (hno _ _ hw (by omega))
    · have hle := hfirst _ _ (by omega) (by omega) fN
      have hin := (hdisk _ hx _ hy).mp hf
      have := disk_extreme_neg ((((scan sr).min_y.y : Nat) : Int) - cy)
        ((((scan sr).min_y.x : Nat) : Int) - cx) _ hR0 (by omega) (by linarith)
      exact Point.eq_mk _ (by omega) (by omega)
  cases hs : scan sr with
  | mk a b c d =>
    rw [hs] at e1 e2 e3 e4
    simp only at e1 e2 e3 e4
    rw [e1, e2, e3, e4]

/-- C3. On a loaded grid whose foreground is exactly the filled disk of
radius `R >= 1` about `(cx, cy)`, the disk lying inside the grid, the scan
yields `max_x = (cx + R, cy)`, `min_x = (cx - R, cy)`, `max_y = (cx, cy + R)`
and `min_y = (cx, cy - R)`, `recognize_shape` prints a circle, and the
radicand of the distance between `min_x` and `max_x` is `(2 R) ^ 2`, so the
printed radius is half the square root of `(2 R) ^ 2`. -/
theorem disk_recognized_as_circle {F : Type} (fl : FloatOps F) (sr : Shape_recognizer)
    (R cx cy : Nat) (hload : Loaded sr)
    (hR : 1 ≤ R) (hcx : R ≤ cx) (hcy : R ≤ cy)
    (hw : cx + R < sr.width) (hh : cy + R < sr.height)
    (hdisk : ∀ x, x < sr.width → ∀ y, y < sr.height →
      (foreground sr x y ↔ ((x : Int) - cx) ^ 2 + ((y : Int) - cy) ^ 2 ≤ (R : Int) ^ 2)) :
    scan sr = ⟨⟨cx + R, cy⟩, ⟨cx - R, cy⟩, ⟨cx, cy + R⟩, ⟨cx, cy - R⟩⟩ ∧
    distance_radicand (scan sr).min_x (scan sr).max_x = (2 * R) ^ 2 ∧
    recognize_shape fl sr = some (Shape.Circle (fl.div (fl.sqrt ((2 * R) ^ 2)) (fl.ofNat 2))) := by
  have hs := scan_disk sr R cx cy hR hcx hcy hw hh hdisk
  obtain ⟨hempty, hwb, hhb, hprod, _⟩ := hload
  have hsq : (2 * R) * (2 * R) < UINT_MOD :=
    Nat.lt_of_le_of_lt (Nat.mul_le_mul (by omega) (by omega)) hprod
  have hU : UINT_MOD = 4294967296 := by norm_num [UINT_MOD]
  have hrad : distance_radicand (⟨cx - R, cy⟩ : Point) ⟨cx + R, cy⟩ = (2 * R) ^ 2 := by
    have h1 : usub (cx + R) (cx - R) = 2 * R := by
      rw [usub_of_le (by omega) (by omega)]; omega
    have h2 : usub cy cy = 0 := by
      rw [usub_of_le (Nat.le_refl _) (by omega)]; omega
    simp only [distance_radicand, h1, h2, umul, uadd, Nat.mul_zero, Nat.zero_mod, Nat.add_zero,
      Nat.mod_mod]
    rw [Nat.mod_eq_of_lt hsq, sq]
  refine ⟨hs, by rw [hs]; exact hrad, ?_⟩
  have hne : ¬ some_pair_equal
      (⟨⟨cx + R, cy⟩, ⟨cx - R, cy⟩, ⟨cx, cy + R⟩, ⟨cx, cy - R⟩⟩ : BorderPoints) := by
    simp only [some_pair_equal, Point.mk.injEq]
    omega
  simp only [recognize_shape, hempty, hs, classify, hne, points_between, distance_between, hrad,
    if_false, Bool.not_false, if_true, Bool.false_eq_true]

/-- Witness of C3 on the 5 x 5 image holding the disk of radius 2 about
`(2, 2)`. -/
theorem disk_recognized_as_circle_witness :
    Loaded disk_r2 ∧
    (∀ x, x < disk_r2.width → ∀ y, y < disk_r2.height →
      (foreground disk_r2 x y ↔
        ((x : Int) - (2 : Nat)) ^ 2 + ((y : Int) - (2 : Nat)) ^ 2 ≤ ((2 : Nat) : Int) ^ 2)) ∧
    scan disk_r2 = ⟨⟨2 + 2, 2⟩, ⟨2 - 2, 2⟩, ⟨2, 2 + 2⟩, ⟨2, 2 - 2⟩⟩ ∧
    distance_radicand (scan disk_r2).min_x (scan disk_r2).max_x = (2 * 2) ^ 2 ∧
    recognize_shape symbolic disk_r2 =
      some (Shape.Circle (symbolic.div (symbolic.sqrt ((2 * 2) ^ 2)) (symbolic.ofNat 2))) :=
  ⟨by decide, by decide,
    disk_recognized_as_circle symbolic disk_r2 2 2 2 (by decide) (by decide) (by decide)
      (by decide) (by decide) (by decide) (by decide)⟩

/-- C4. On the 1 x 2 image with its only black pixel at `(0, 1)`, the scan
leaves `max_x` at its initial value `(0, 0)`, a white pixel, although the
foreground pixel of greatest `x` (and least `y` for that `x`) is `(0, 1)`:
a foreground pixel in column 0 never passes the strict test
`x > max_x.x`. -/
theorem max_x_misses_column_zero :
    Loaded column_dot ∧
    foreground column_dot 0 1 ∧
    (∀ x, x < column_dot.width → ∀ y, y < column_dot.height →
      foreground column_dot x y → x ≤ 0 ∧ 1 ≤ y) ∧
    (scan column_dot).max_x = ⟨0, 0⟩ ∧
    (scan column_dot).max_x ≠ ⟨0, 1⟩ := by
  decide

/-- C5. On the 2 x 2 image with its only black pixel at `(0, 1)`, the
border point `max_x` produced by the scan is `(0, 0)`, which lies within
the grid but is not a foreground pixel: the first foreground pixel scanned
overwrites `min_x`, `max_y` and `min_y` but not `max_x`. -/
theorem max_x_not_foreground :
    Loaded corner_dot ∧
    foreground corner_dot 0 1 ∧
    (scan corner_dot).min_x = ⟨0, 1⟩ ∧
    (scan corner_dot).max_y = ⟨0, 1⟩ ∧
    (scan corner_dot).min_y = ⟨0, 1⟩ ∧
    (scan corner_dot).max_x = (init_points corner_dot).max_x ∧
    ¬ foreground corner_dot (scan corner_dot).max_x.x (scan corner_dot).max_x.y := by
  decide

/-- C6. On a loaded grid, `recognize_shape` prints a triangle if and only
if some two of the four border points are equal, and in that case the
triangle is the one measured on `measured_points`, whatever the other
branches would give. -/
theorem triangle_iff_some_pair_equal {F : Type} (fl : FloatOps F) (sr : Shape_recognizer)
    (hload : Loaded sr) :
    ((∃ s a b, recognize_shape fl sr = some (Shape.Triangle s a b)) ↔
      some_pair_equal (scan sr)) ∧
    (some_pair_equal (scan sr) →
      recognize_shape fl sr = some (triangle_of fl (measured_points (scan sr)))) := by
  have hrec : recognize_shape fl sr = classify fl sr (scan sr) := by
    simp only [recognize_shape, hload.1, Bool.false_eq_true, if_false]
  by_cases hp : some_pair_equal (scan sr)
  · have hres : recognize_shape fl sr = some (triangle_of fl (measured_points (scan sr))) := by
      rw [hrec]
      simp only [classify, hp, if_true]
    exact ⟨⟨fun _ => hp, fun _ => ⟨_, _, _, hres⟩⟩, fun _ => hres⟩
  · refine ⟨⟨?_, fun h => absurd h hp⟩, fun h => absurd h hp⟩
    rintro ⟨s, a, b, h⟩
    rw [hrec] at h
    simp only [classify, hp, if_false, points_between, Bool.not_false, if_true] at h
    cases h

/-- Witness of C6 on the 1 x 1 black image. -/
theorem triangle_iff_some_pair_equal_witness :
    Loaded black_1x1 ∧
    (((∃ s a b, recognize_shape symbolic black_1x1 = some (Shape.Triangle s a b)) ↔
      some_pair_equal (scan black_1x1)) ∧
    (some_pair_equal (scan black_1x1) →
      recognize_shape symbolic black_1x1 =
        some (triangle_of symbolic (measured_points (scan black_1x1))))) :=
  ⟨by decide, triangle_iff_some_pair_equal symbolic black_1x1 (by decide)⟩

/-- C7. On a loaded grid whose four border points are pairwise distinct,
`recognize_shape` prints a circle of radius
`distance_between(min_x, max_x) / 2`, whatever the pixels of the grid are. -/
theorem distinct_points_give_circle {F : Type} (fl : FloatOps F) (sr : Shape_recognizer)
    (hload : Loaded sr) (hdist : ¬ some_pair_equal (scan sr)) :
    recognize_shape fl sr =
      some (Shape.Circle
        (fl.div (distance_between fl (scan sr).min_x (scan sr).max_x) (fl.ofNat 2))) := by
  simp only [recognize_shape, hload.1, classify, hdist, points_between, Bool.false_eq_true,
    if_false, Bool.not_false, if_true]

/-- Witness of C7 on the 2 x 2 black image. -/
theorem distinct_points_give_circle_witness :
    Loaded black_2x2 ∧ ¬ some_pair_equal (scan black_2x2) ∧
    recognize_shape symbolic black_2x2 =
      some (Shape.Circle (symbolic.div
        (distance_between symbolic (scan black_2x2).min_x (scan black_2x2).max_x)
        (symbolic.ofNat 2))) :=
  ⟨by decide, by decide, distinct_points_give_circle symbolic black_2x2 (by decide) (by decide)⟩

/-- C8. On the 3 x 1 all-black image, the foreground pixel `(1, 0)` lies on
the segment from `(0, 0)` to `(2, 0)` strictly between its endpoints, and
`points_between` returns `false` for these two points. -/
theorem points_between_ignores_pixels :
    Loaded black_row3 ∧
    foreground black_row3 1 0 ∧
    spec_strictly_between ⟨0, 0⟩ ⟨2, 0⟩ ⟨1, 0⟩ ∧
    points_between black_row3 ⟨0, 0⟩ ⟨2, 0⟩ = false := by
  decide

/-- C9. On the 3 x 2 image with black pixels at `(0, 0)`, `(2, 0)` and
`(1, 1)`, the scan gives `max_x = (2, 0)`, `min_x = min_y = (0, 0)` and
`max_y = (1, 1)`: three distinct values, the triangle branch is taken, and
the points it measures are `(2, 0)`, `(0, 0)`, `(0, 0)`. They are not
pairwise distinct, the vertex `(1, 1)` is not among them, and the edge
from `min_y` to `min_x` has radicand 0. -/
theorem measured_points_repeat_a_vertex :
    Loaded down_triangle ∧
    scan down_triangle = ⟨⟨2, 0⟩, ⟨0, 0⟩, ⟨1, 1⟩, ⟨0, 0⟩⟩ ∧
    some_pair_equal (scan down_triangle) ∧
    distinct_values (scan down_triangle) = 3 ∧
    measured_points (scan down_triangle) = (⟨2, 0⟩, ⟨0, 0⟩, ⟨0, 0⟩) ∧
    ¬ pairwise_distinct (measured_points (scan down_triangle)) ∧
    distance_radicand (measured_points (scan down_triangle)).2.1
      (measured_points (scan down_triangle)).2.2 = 0 := by
  decide

/-! ## The angles of the triangle branch -/

/-- With all coordinates at most `2 ^ 15`, the square of the stored scalar
product at `o` is at most the product of the radicands of the two edges
from `o`. -/
theorem scalar_prod_sq_le (o p q : Point)
    (ho : o.x ≤ 2 ^ 15 ∧ o.y ≤ 2 ^ 15) (hp : p.x ≤ 2 ^ 15 ∧ p.y ≤ 2 ^ 15)
    (hq : q.x ≤ 2 ^ 15 ∧ q.y ≤ 2 ^ 15) :
    scalar_prod o p q ^ 2 ≤ distance_radicand o p * distance_radicand o q := by
  have h := abs_scalar_sq_le ((p.x : Int) - o.x) ((q.x : Int) - o.x)
    ((p.y : Int) - o.y) ((q.y : Int) - o.y)
  rw [← scalar_prod_exact o p q ho hp hq, ← distance_radicand_exact o p ho hp,
    ← distance_radicand_exact o q ho hq] at h
  exact_mod_cast h

/-- With all coordinates at most `2 ^ 15`, the radicand does not depend on
the order of the two points. -/
theorem distance_radicand_comm_small (p q : Point)
    (hp : p.x ≤ 2 ^ 15 ∧ p.y ≤ 2 ^ 15) (hq : q.x ≤ 2 ^ 15 ∧ q.y ≤ 2 ^ 15) :
    distance_radicand p q = distance_radicand q p := by
  have h1 := distance_radicand_exact p q hp hq
  have h2 := distance_radicand_exact q p hq hp
  have : (distance_radicand p q : Int) = distance_radicand q p := by
    rw [h1, h2]; ring
  exact_mod_cast this

/-- The three measured points are border points, so their coordinates are
at most the dimensions of the grid. -/
theorem measured_points_le (sr : Shape_recognizer) :
    ((measured_points (scan sr)).1.x ≤ sr.width ∧
      (measured_points (scan sr)).1.y ≤ sr.height) ∧
    ((measured_points (scan sr)).2.1.x ≤ sr.width ∧
      (measured_points (scan sr)).2.1.y ≤ sr.height) ∧
    ((measured_points (scan sr)).2.2.x ≤ sr.width ∧
      (measured_points (scan sr)).2.2.y ≤ sr.height) := by
  obtain ⟨h1, h2, h3, h4⟩ := scan_coords_le sr
  unfold measured_points
  by_cases h : (scan sr).max_x ≠ (scan sr).min_y
  · rw [if_pos h]; exact ⟨h1, h4, h2⟩
  · rw [if_neg h]; exact ⟨h1, h3, h2⟩

/-! ## The radicand of `distance_between` modulo `2 ^ 32` -/

/-- The radicand is the squared Euclidean distance reduced modulo
`2 ^ 32`, whatever the order of the coordinates. -/
theorem distance_radicand_mod (p_1 p_2 : Point) (h1 : fits_uint p_1) (h2 : fits_uint p_2) :
    (distance_radicand p_1 p_2 : Int) = exact_sq_dist p_1 p_2 % (UINT_MOD : Int) := by
  unfold distance_radicand exact_sq_dist
  rw [umul_usub_self _ _ h2.1 h1.1, umul_usub_self _ _ h2.2 h1.2]
  unfold uadd
  rw [← Nat.add_mod]
  push_cast
  rw [abs_mul_abs_self, abs_mul_abs_self]
  congr 1
  ring

/-- C11, the claim as stated, fails: for `p_1 = (0, 0)` and
`p_2 = (65536, 0)` the radicand computed modulo `2 ^ 32` is 0, while
`dx ^ 2 + dy ^ 2` is `2 ^ 32`. -/
theorem radicand_wraps_at_65536 :
    fits_uint ⟨0, 0⟩ ∧ fits_uint ⟨65536, 0⟩ ∧
    distance_radicand ⟨0, 0⟩ ⟨65536, 0⟩ = 0 ∧
    exact_sq_dist ⟨0, 0⟩ ⟨65536, 0⟩ = 4294967296 ∧
    (distance_radicand ⟨0, 0⟩ ⟨65536, 0⟩ : Int) ≠ exact_sq_dist ⟨0, 0⟩ ⟨65536, 0⟩ := by
  decide

/-- C11, amended. For two points with 32-bit unsigned coordinates, the
radicand that `distance_between` passes to `sqrt` is `dx ^ 2 + dy ^ 2`
reduced modulo `2 ^ 32`, with `dx`, `dy` the signed coordinate differences;
it is `dx ^ 2 + dy ^ 2` itself whenever that value is below `2 ^ 32`. -/
theorem distance_radicand_is_sq_dist_mod (p_1 p_2 : Point)
    (h1 : fits_uint p_1) (h2 : fits_uint p_2) :
    (distance_radicand p_1 p_2 : Int) = exact_sq_dist p_1 p_2 % (UINT_MOD : Int) ∧
    (exact_sq_dist p_1 p_2 < (UINT_MOD : Int) →
      (distance_radicand p_1 p_2 : Int) = exact_sq_dist p_1 p_2) := by
  have hmod := distance_radicand_mod p_1 p_2 h1 h2
  refine ⟨hmod, fun hlt => ?_⟩
  rw [hmod]
  apply Int.emod_eq_of_lt _ hlt
  unfold exact_sq_dist
  positivity

/-- Witness of the amended C11 on `(3, 1)` and `(0, 5)`, where the
difference `0 - 3` wraps. -/
theorem distance_radicand_is_sq_dist_mod_witness :
    fits_uint ⟨3, 1⟩ ∧ fits_uint ⟨0, 5⟩ ∧
    exact_sq_dist ⟨3, 1⟩ ⟨0, 5⟩ < (UINT_MOD : Int) ∧
    (distance_radicand ⟨3, 1⟩ ⟨0, 5⟩ : Int) = exact_sq_dist ⟨3, 1⟩ ⟨0, 5⟩ :=
  ⟨by decide, by decide, by decide,
    (distance_radicand_is_sq_dist_mod ⟨3, 1⟩ ⟨0, 5⟩ (by decide) (by decide)).2 (by decide)⟩

/-- C17. For two points with 32-bit unsigned coordinates, the radicand
computed modulo `2 ^ 32` is the same in both orders of the points, hence
`distance_between(p_1, p_2) = distance_between(p_2, p_1)` whatever the
floating-point square root. -/
theorem distance_between_symmetric {F : Type} (fl : FloatOps F) (p_1 p_2 : Point)
    (h1 : fits_uint p_1) (h2 : fits_uint p_2) :
    distance_radicand p_1 p_2 = distance_radicand p_2 p_1 ∧
    distance_between fl p_1 p_2 = distance_between fl p_2 p_1 := by
  have hr : distance_radicand p_1 p_2 = distance_radicand p_2 p_1 := by
    have a := distance_radicand_mod p_1 p_2 h1 h2
    have b := distance_radicand_mod p_2 p_1 h2 h1
    have e : exact_sq_dist p_1 p_2 = exact_sq_dist p_2 p_1 := by
      unfold exact_sq_dist; ring
    rw [e, ← b] at a
    exact_mod_cast a
  exact ⟨hr, by unfold distance_between; rw [hr]⟩

/-- Witness of C17 on `(3, 1)` and `(0, 5)`: one difference wraps in each
order. -/
theorem distance_between_symmetric_witness :
    fits_uint ⟨3, 1⟩ ∧ fits_uint ⟨0, 5⟩ ∧
    distance_radicand ⟨3, 1⟩ ⟨0, 5⟩ = distance_radicand ⟨0, 5⟩ ⟨3, 1⟩ ∧
    distance_between symbolic ⟨3, 1⟩ ⟨0, 5⟩ = distance_between symbolic ⟨0, 5⟩ ⟨3, 1⟩ :=
  ⟨by decide, by decide, distance_between_symmetric symbolic ⟨3, 1⟩ ⟨0, 5⟩ (by decide) (by decide)⟩

/-! ## The tie-breaks of the scan -/

/-- C12. On a loaded grid with a foreground pixel, `min_y` is the first and
`max_y` the last foreground pixel in row-major scan order: both are
foreground pixels of the grid, no foreground pixel has a smaller `y` than
`min_y` or a smaller `x` in the row of `min_y`, and none has a greater `y`
than `max_y` or a greater `x` in the row of `max_y`. -/
theorem min_y_first_max_y_last (sr : Shape_recognizer) (x0 y0 : Nat) (_hload : Loaded sr)
    (hx0 : x0 < sr.width) (hy0 : y0 < sr.height) (hf0 : foreground sr x0 y0) :
    (((scan sr).min_y.x < sr.width ∧ (scan sr).min_y.y < sr.height) ∧
      foreground sr (scan sr).min_y.x (scan sr).min_y.y ∧
      ∀ x, x < sr.width → ∀ y, y < sr.height → foreground sr x y →
        (scan sr).min_y.y ≤ y ∧ (y = (scan sr).min_y.y → (scan sr).min_y.x ≤ x)) ∧
    (((scan sr).max_y.x < sr.width ∧ (scan sr).max_y.y < sr.height) ∧
      foreground sr (scan sr).max_y.x (scan sr).max_y.y ∧
      ∀ x, x < sr.width → ∀ y, y < sr.height → foreground sr x y →
        y ≤ (scan sr).max_y.y ∧ (y = (scan sr).max_y.y → x ≤ (scan sr).max_y.x)) := by
  constructor
  · rcases scan_min_y sr with ⟨_, hno⟩ | ⟨hin, hf, hfirst⟩
    · exact absurd hf0 (hno x0 y0 hx0 hy0)
    · refine ⟨hin, hf, ?_⟩
      intro x hx y hy hfg
      rcases hfirst x y hx hy hfg with h | ⟨h1, h2⟩
      · exact ⟨Nat.le_of_lt h, fun he => absurd he (Nat.ne_of_gt h)⟩
      · exact ⟨Nat.le_of_eq h1.symm, fun _ => h2⟩
  · rcases scan_max_y sr with ⟨_, hno⟩ | ⟨hin, hf, hlast⟩
    · exact absurd hf0 (hno x0 y0 hx0 hy0)
    · refine ⟨hin, hf, ?_⟩
      intro x hx y hy hfg
      rcases hlast x y hx hy hfg with h | ⟨h1, h2⟩
      · exact ⟨Nat.le_of_lt h, fun he => absurd he (Nat.ne_of_lt h)⟩
      · exact ⟨Nat.le_of_eq h1, fun _ => h2⟩

/-- Witness of C12 on the image with black pixels at `(2, 0)`, `(2, 2)`,
`(0, 1)` and `(0, 2)`. -/
theorem min_y_first_max_y_last_witness :
    Loaded two_columns ∧ foreground two_columns 2 0 ∧
    (scan two_columns).min_y = ⟨2, 0⟩ ∧ (scan two_columns).max_y = ⟨2, 2⟩ ∧
    ∀ x, x < two_columns.width → ∀ y, y < two_columns.height → foreground two_columns x y →
      (scan two_columns).min_y.y ≤ y ∧
        (y = (scan two_columns).min_y.y → (scan two_columns).min_y.x ≤ x) :=
  ⟨by decide, by decide, by decide, by decide,
    (min_y_first_max_y_last two_columns 2 0 (by decide) (by decide) (by decide)
      (by decide)).1.2.2⟩

/-- C13. On a loaded grid with a foreground pixel, `min_x` is a foreground
pixel of the grid, its `x` is the least `x` of all foreground pixels, and
its `y` is the greatest among the foreground pixels with that `x`. -/
theorem min_x_least_x_latest_row (sr : Shape_recognizer) (x0 y0 : Nat) (_hload : Loaded sr)
    (hx0 : x0 < sr.width) (hy0 : y0 < sr.height) (hf0 : foreground sr x0 y0) :
    ((scan sr).min_x.x < sr.width ∧ (scan sr).min_x.y < sr.height) ∧
    foreground sr (scan sr).min_x.x (scan sr).min_x.y ∧
    (∀ x, x < sr.width → ∀ y, y < sr.height → foreground sr x y → (scan sr).min_x.x ≤ x) ∧
    (∀ y, y < sr.height → foreground sr (scan sr).min_x.x y → y ≤ (scan sr).min_x.y) := by
  rcases scan_min_x sr with ⟨_, hno⟩ | ⟨hin, hf, hmin, hties⟩
  · exact absurd hf0 (hno x0 y0 hx0 hy0)
  · exact ⟨hin, hf, fun x hx y hy hfg => hmin x y hx hy hfg,
      fun y hy hfg => hties _ y hin.1 hy hfg rfl⟩

/-- Witness of C13 on the image with black pixels at `(2, 0)`, `(2, 2)`,
`(0, 1)` and `(0, 2)`. -/
theorem min_x_least_x_latest_row_witness :
    Loaded two_columns ∧ foreground two_columns 0 1 ∧ foreground two_columns 0 2 ∧
    (scan two_columns).min_x = ⟨0, 2⟩ ∧
    (∀ y, y < two_columns.height → foreground two_columns (scan two_columns).min_x.x y →
      y ≤ (scan two_columns).min_x.y) :=
  ⟨by decide, by decide, by decide, by decide,
    (min_x_least_x_latest_row two_columns 0 1 (by decide) (by decide) (by decide)
      (by decide)).2.2.2⟩

/-- C14. On a loaded grid whose foreground is exactly the filled rectangle
with corners `x0 < x1` and `y0 < y1` inside the grid, the scan yields
`min_y = (x0, y0)`, `max_x = (x1, y0)`, `min_x = (x0, y1)` and
`max_y = (x1, y1)`. -/
theorem rectangle_border_points (sr : Shape_recognizer) (x0 x1 y0 y1 : Nat)
    (_hload : Loaded sr) (hx : x0 < x1) (hy : y0 < y1)
    (hx1 : x1 < sr.width) (hy1 : y1 < sr.height)
    (hrect : ∀ x, x < sr.width → ∀ y, y < sr.height →
      (foreground sr x y ↔ (x0 ≤ x ∧ x ≤ x1 ∧ y0 ≤ y ∧ y ≤ y1))) :
    (scan sr).min_y = ⟨x0, y0⟩ ∧ (scan sr).max_x = ⟨x1, y0⟩ ∧
    (scan sr).min_x = ⟨x0, y1⟩ ∧ (scan sr).max_y = ⟨x1, y1⟩ := by
  have fNW : foreground sr x0 y0 := (hrect _ (by omega) _ (by omega)).mpr (by omega)
  have fNE : foreground sr x1 y0 := (hrect _ hx1 _ (by omega)).mpr (by omega)
  have fSW : foreground sr x0 y1 := (hrect _ (by omega) _ hy1).mpr (by omega)
  have fSE : foreground sr x1 y1 := (hrect _ hx1 _ hy1).mpr (by omega)
  refine ⟨?_, ?_, ?_, ?_⟩
  · rcases scan_min_y sr with ⟨_, hno⟩ | ⟨⟨hix, hiy⟩, hf, hfirst⟩
    · exact absurd fSE (hno _ _ hx1 hy1)
    · have hin := (hrect _ hix _ hiy).mp hf
      have h := hfirst _ _ (by omega) (by omega) fNW
      exact Point.eq_mk _ (by omega) (by omega)
  · obtain ⟨hmax, hpt⟩ := scan_max_x sr
    have hge := hmax _ _ hx1 hy1 fSE
    rcases hpt with h0 | ⟨⟨hix, hiy⟩, hf, hties⟩
    · rw [h0] at hge
      exact absurd hge (by simp only [Nat.le_zero_eq]; omega)
    · have hin := (hrect _ hix _ hiy).mp hf
      have h := hties _ _ hx1 (by omega) fNE (by omega)
      exact Point.eq_mk _ (by omega) (by omega)
  · rcases scan_min_x sr with ⟨_, hno⟩ | ⟨⟨hix, hiy⟩, hf, hmin, hties⟩
    · exact absurd fSE (hno _ _ hx1 hy1)
    · have hin := (hrect _ hix _ hiy).mp hf
      have hle := hmin _ _ (by omega) (by omega) fNW
      have h := hties _ _ (by omega) hy1 fSW (by omega)
      exact Point.eq_mk _ (by omega) (by omega)
  · rcases scan_max_y sr with ⟨_, hno⟩ | ⟨⟨hix, hiy⟩, hf, hlast⟩
    · exact absurd fSE (hno _ _ hx1 hy1)
    · have hin := (hrect _ hix _ hiy).mp hf
      have h := hlast _ _ hx1 hy1 fSE
      exact Point.eq_mk _ (by omega) (by omega)

/-- Witness of C14 on the 5 x 4 image holding the rectangle with corners
`(1, 1)` and `(3, 2)`. -/
theorem rectangle_border_points_witness :
    Loaded rect_3x2 ∧
    (∀ x, x < rect_3x2.width → ∀ y, y < rect_3x2.height →
      (foreground rect_3x2 x y ↔ (1 ≤ x ∧ x ≤ 3 ∧ 1 ≤ y ∧ y ≤ 2))) ∧
    ((scan rect_3x2).min_y = ⟨1, 1⟩ ∧ (scan rect_3x2).max_x = ⟨3, 1⟩ ∧
      (scan rect_3x2).min_x = ⟨1, 2⟩ ∧ (scan rect_3x2).max_y = ⟨3, 2⟩) :=
  ⟨by decide, by decide,
    rectangle_border_points rect_3x2 1 3 1 2 (by decide) (by decide) (by decide) (by decide)
      (by decide) (by decide)⟩

/-! ## The outcomes of the decision tree -/

/-- C15. There is a loaded grid that reaches the triangle branch on which
the stored scalar product of absolute differences differs from the signed
dot product of the same two edge vectors: with black pixels exactly at
`(1, 0)`, `(2, 1)` and `(0, 2)`, at the vertex `max_x = (2, 1)` with the
edges towards `min_x = (0, 2)` and `min_y = (1, 0)`, the code computes 3
and the signed dot product is 1. -/
theorem abs_scalar_prod_differs_from_dot :
    ∃ sr : Shape_recognizer, Loaded sr ∧ some_pair_equal (scan sr) ∧
      (∀ x, x < sr.width → ∀ y, y < sr.height →
        (foreground sr x y ↔ ((x = 1 ∧ y = 0) ∨ (x = 2 ∧ y = 1) ∨ (x = 0 ∧ y = 2)))) ∧
      (scan sr).max_x ≠ (scan sr).min_y ∧
      (scan sr).max_x = ⟨2, 1⟩ ∧ (scan sr).min_x = ⟨0, 2⟩ ∧ (scan sr).min_y = ⟨1, 0⟩ ∧
      scalar_prod (scan sr).max_x (scan sr).min_x (scan sr).min_y = 3 ∧
      signed_dot (scan sr).max_x (scan sr).min_x (scan sr).min_y = 1 ∧
      (scalar_prod (scan sr).max_x (scan sr).min_x (scan sr).min_y : Int) ≠
        signed_dot (scan sr).max_x (scan sr).min_x (scan sr).min_y :=
  ⟨three_dots, by decide⟩

/-- C16. `recognize_shape` returns `false` exactly when the flag `empty` is
set; otherwise it prints a triangle or a circle, so it never prints a
square or a rectangle and never reaches its final `return false`. -/
theorem recognize_shape_false_iff_empty {F : Type} (fl : FloatOps F) (sr : Shape_recognizer) :
    (recognize_shape fl sr = none ↔ sr.empty = true) ∧
    (sr.empty = true ∨
      (∃ s a b, recognize_shape fl sr = some (Shape.Triangle s a b)) ∨
      (∃ r, recognize_shape fl sr = some (Shape.Circle r))) ∧
    (∀ s, recognize_shape fl sr ≠ some (Shape.Square s)) ∧
    (∀ a b, recognize_shape fl sr ≠ some (Shape.Rectangle a b)) := by
  cases he : sr.empty with
  | true =>
    have hn : recognize_shape fl sr = none := by
      simp only [recognize_shape, he, if_true]
    refine ⟨⟨fun _ => rfl, fun _ => hn⟩, Or.inl rfl, ?_, ?_⟩
    · intro s h; rw [hn] at h; cases h
    · intro a b h; rw [hn] at h; cases h
  | false =>
    by_cases hp : some_pair_equal (scan sr)
    · have hres : recognize_shape fl sr = some (triangle_of fl (measured_points (scan sr))) := by
        simp only [recognize_shape, he, classify, hp, Bool.false_eq_true, if_false, if_true]
      refine ⟨⟨fun h => ?_, fun h => ?_⟩, Or.inr (Or.inl ⟨_, _, _, hres⟩), ?_, ?_⟩
      · rw [hres] at h; cases h
      · cases h
      · intro s h; rw [hres] at h; cases h
      · intro a b h; rw [hres] at h; cases h
    · have hres : recognize_shape fl sr = some (Shape.Circle
          (fl.div (distance_between fl (scan sr).min_x (scan sr).max_x) (fl.ofNat 2))) := by
        simp only [recognize_shape, he, classify, hp, points_between, Bool.false_eq_true,
          if_false, Bool.not_false, if_true]
      refine ⟨⟨fun h => ?_, fun h => ?_⟩, Or.inr (Or.inr ⟨_, hres⟩), ?_, ?_⟩
      · rw [hres] at h; cases h
      · cases h
      · intro s h; rw [hres] at h; cases h
      · intro a b h; rw [hres] at h; cases h

/-- With the flag `empty` cleared and two border points equal,
`recognize_shape` prints the triangle of the measured points. -/
theorem triangle_branch_result {F : Type} (fl : FloatOps F) (sr : Shape_recognizer)
    (he : sr.empty = false) (hp : some_pair_equal (scan sr)) :
    recognize_shape fl sr = some (triangle_of fl (measured_points (scan sr))) := by
  simp only [recognize_shape, he, classify, hp, Bool.false_eq_true, if_false, if_true]

theorem distance_radicand_self (p : Point) : distance_radicand p p = 0 := by
  have hx : usub p.x p.x = 0 := by
    unfold usub
    rw [Nat.add_sub_cancel_left, Nat.mod_self]
  have hy : usub p.y p.y = 0 := by
    unfold usub
    rw [Nat.add_sub_cancel_left, Nat.mod_self]
  unfold distance_radicand
  rw [hx, hy]
  rfl

/-- C18. On a loaded grid with exactly one foreground pixel `(px, py)`,
`recognize_shape` prints a triangle; when `px >= 1` all four border points
are `(px, py)`, the three measured points are `(px, py)`, and the measured
side has radicand 0. -/
theorem single_pixel_is_triangle {F : Type} (fl : FloatOps F) (sr : Shape_recognizer)
    (px py : Nat) (hload : Loaded sr) (hpx : px < sr.width) (hpy : py < sr.height)
    (hfg : foreground sr px py)
    (huniq : ∀ x, x < sr.width → ∀ y, y < sr.height → foreground sr x y → x = px ∧ y = py) :
    (∃ s a b, recognize_shape fl sr = some (Shape.Triangle s a b)) ∧
    (1 ≤ px →
      scan sr = ⟨⟨px, py⟩, ⟨px, py⟩, ⟨px, py⟩, ⟨px, py⟩⟩ ∧
      measured_points (scan sr) = (⟨px, py⟩, ⟨px, py⟩, ⟨px, py⟩) ∧
      distance_radicand (measured_points (scan sr)).1 (measured_points (scan sr)).2.1 = 0 ∧
      ∃ a b, recognize_shape fl sr = some (Shape.Triangle (fl.sqrt 0) a b)) := by
  have e2 : (scan sr).min_x = ⟨px, py⟩ := by
    rcases scan_min_x sr with ⟨_, hno⟩ | ⟨⟨hx, hy⟩, hf, _⟩
    · exact absurd hfg (hno _ _ hpx hpy)
    · exact Point.eq_mk _ (huniq _ hx _ hy hf).1 (huniq _ hx _ hy hf).2
  have e3 : (scan sr).max_y = ⟨px, py⟩ := by
    rcases scan_max_y sr with ⟨_, hno⟩ | ⟨⟨hx, hy⟩, hf, _⟩
    · exact absurd hfg (hno _ _ hpx hpy)
    · exact Point.eq_mk _ (huniq _ hx _ hy hf).1 (huniq _ hx _ hy hf).2
  have e4 : (scan sr).min_y = ⟨px, py⟩ := by
    rcases scan_min_y sr with ⟨_, hno⟩ | ⟨⟨hx, hy⟩, hf, _⟩
    · exact absurd hfg (hno _ _ hpx hpy)
    · exact Point.eq_mk _ (huniq _ hx _ hy hf).1 (huniq _ hx _ hy hf).2
  have hp : some_pair_equal (scan sr) :=
    Or.inr (Or.inr (Or.inr (Or.inl (e2.trans e3.symm))))
  have hres := (triangle_branch_result fl sr hload.1 hp)
  refine ⟨⟨_, _, _, hres⟩, ?_⟩
  intro h1
  have e1 : (scan sr).max_x = ⟨px, py⟩ := by
    obtain ⟨hmax, hpt⟩ := scan_max_x sr
    have hge := hmax _ _ hpx hpy hfg
    rcases hpt with h0 | ⟨⟨hx, hy⟩, hf, _⟩
    · rw [h0] at hge
      exact absurd hge (by simp only [Nat.le_zero_eq]; omega)
    · exact Point.eq_mk _ (huniq _ hx _ hy hf).1 (huniq _ hx _ hy hf).2
  have hs : scan sr = ⟨⟨px, py⟩, ⟨px, py⟩, ⟨px, py⟩, ⟨px, py⟩⟩ := by
    cases hsc : scan sr with
    | mk a b c d =>
      rw [hsc] at e1 e2 e3 e4
      simp only at e1 e2 e3 e4
      rw [e1, e2, e3, e4]
  have hmp : measured_points (scan sr) = (⟨px, py⟩, ⟨px, py⟩, ⟨px, py⟩) := by
    rw [hs]
    simp only [measured_points, ne_eq, not_true_eq_false, if_false]
  refine ⟨hs, hmp, ?_, ?_⟩
  · rw [hmp]
    exact distance_radicand_self _
  · rw [hmp] at hres
    rw [hres]
    simp only [triangle_of, distance_between, distance_radicand_self]
    exact ⟨_, _, rfl⟩

/-- Witness of C18 on the 3 x 3 image whose only black pixel is `(1, 1)`. -/
theorem single_pixel_is_triangle_witness :
    Loaded single_dot ∧ foreground single_dot 1 1 ∧
    (∀ x, x < single_dot.width → ∀ y, y < single_dot.height →
      foreground single_dot x y → x = 1 ∧ y = 1) ∧
    (∃ s a b, recognize_shape symbolic single_dot = some (Shape.Triangle s a b)) ∧
    scan single_dot = ⟨⟨1, 1⟩, ⟨1, 1⟩, ⟨1, 1⟩, ⟨1, 1⟩⟩ :=
  ⟨by decide, by decide, by decide,
    (single_pixel_is_triangle symbolic single_dot 1 1 (by decide) (by decide) (by decide)
      (by decide) (by decide)).1,
    ((single_pixel_is_triangle symbolic single_dot 1 1 (by decide) (by decide) (by decide)
      (by decide) (by decide)).2 (by decide)).1⟩

/-! ## The row-major index -/

theorem row_major_lt {w h x y : Nat} (hx : x < w) (hy : y < h) : y * w + x < w * h := by
  have h1 : (y + 1) * w ≤ h * w := Nat.mul_le_mul_right w hy
  rw [Nat.succ_mul, Nat.mul_comm h w] at h1
  omega

theorem row_major_inj {w x y x2 y2 : Nat} (hx : x < w) (hx2 : x2 < w)
    (h : y * w + x = y2 * w + x2) : x = x2 ∧ y = y2 := by
  have hw : 0 < w := Nat.lt_of_le_of_lt (Nat.zero_le _) hx
  have hm : (x + y * w) % w = (x2 + y2 * w) % w := by
    rw [Nat.add_comm x, Nat.add_comm x2, h]
  rw [Nat.add_mul_mod_self_right, Nat.add_mul_mod_self_right, Nat.mod_eq_of_lt hx,
    Nat.mod_eq_of_lt hx2] at hm
  subst hm
  have hyw : y * w = y2 * w := Nat.add_right_cancel h
  exact ⟨rfl, Nat.eq_of_mul_eq_mul_right hw hyw⟩

/-- The reads of the first `n` rows of a loaded grid are the indices below
`n * width`, in increasing order. -/
theorem scan_reads_rows (sr : Shape_recognizer) (hload : Loaded sr) :
    ∀ n, n ≤ sr.height →
      (List.range n).flatMap
        (fun y => (List.range sr.width).map (fun x => pixel_index sr x y)) =
      List.range (n * sr.width) := by
  intro n
  induction n with
  | zero => intro _; simp
  | succ k ih =>
    intro hk
    rw [List.range_succ, List.flatMap_append, ih (by omega), List.flatMap_singleton,
      Nat.succ_mul, List.range_add]
    congr 1
    apply List.map_congr_left
    intro x hx
    have hxw : x < sr.width := List.mem_range.mp hx
    have hlt := row_major_lt hxw (show k < sr.height by omega)
    unfold pixel_index
    exact Nat.mod_eq_of_lt (Nat.lt_trans hlt hload.2.2.2.1)

/-- C19. On a loaded grid (`width * height < 2 ^ 32`), for every `x < width`
and `y < height` the index that `get_pixel` reads is `y * width + x`, it is
below `width * height`, the length of `data`, and distinct cells have
distinct indices; the scan reads the indices `0, 1, ..., width * height - 1`
in this order, each exactly once. -/
theorem pixel_index_in_bounds_injective (sr : Shape_recognizer) (hload : Loaded sr) :
    (∀ x y, get_pixel sr x y = sr.data.getD (pixel_index sr x y) Pixel.zero) ∧
    (∀ x, x < sr.width → ∀ y, y < sr.height →
      pixel_index sr x y = y * sr.width + x ∧
      pixel_index sr x y < sr.width * sr.height ∧
      pixel_index sr x y < sr.data.length) ∧
    (∀ x, x < sr.width → ∀ y, y < sr.height → ∀ x2, x2 < sr.width → ∀ y2, y2 < sr.height →
      pixel_index sr x y = pixel_index sr x2 y2 → x = x2 ∧ y = y2) ∧
    scan_reads sr = List.range (sr.width * sr.height) ∧
    (scan_reads sr).Nodup := by
  have hidx : ∀ x, x < sr.width → ∀ y, y < sr.height →
      pixel_index sr x y = y * sr.width + x := by
    intro x hx y hy
    unfold pixel_index
    exact Nat.mod_eq_of_lt (Nat.lt_trans (row_major_lt hx hy) hload.2.2.2.1)
  have hreads : scan_reads sr = List.range (sr.width * sr.height) := by
    unfold scan_reads
    rw [scan_reads_rows sr hload sr.height (Nat.le_refl _), Nat.mul_comm]
  refine ⟨fun _ _ => rfl, ?_, ?_, hreads, ?_⟩
  · intro x hx y hy
    refine ⟨hidx x hx y hy, ?_, ?_⟩
    · rw [hidx x hx y hy]; exact row_major_lt hx hy
    · rw [hidx x hx y hy, hload.2.2.2.2]; exact row_major_lt hx hy
  · intro x hx y hy x2 hx2 y2 hy2 h
    rw [hidx x hx y hy, hidx x2 hx2 y2 hy2] at h
    exact row_major_inj hx hx2 h
  · rw [hreads]
    exact List.nodup_range _

/-- Witness of C19 on the 5 x 4 image holding a rectangle. -/
theorem pixel_index_in_bounds_injective_witness :
    Loaded rect_3x2 ∧
    (∀ x, x < rect_3x2.width → ∀ y, y < rect_3x2.height →
      pixel_index rect_3x2 x y = y * rect_3x2.width + x ∧
      pixel_index rect_3x2 x y < rect_3x2.width * rect_3x2.height ∧
      pixel_index rect_3x2 x y < rect_3x2.data.length) ∧
    scan_reads rect_3x2 = List.range (rect_3x2.width * rect_3x2.height) :=
  ⟨by decide, (pixel_index_in_bounds_injective rect_3x2 (by decide)).2.1,
    (pixel_index_in_bounds_injective rect_3x2 (by decide)).2.2.2.1⟩

/-! ## The triangle branch on small and on wide grids -/

/-- A grid built by `grid_of` whose size fits a `uint` is loaded. -/
theorem loaded_grid_of (w h : Nat) (black : Nat → Nat → Bool)
    (hw : w < UINT_MOD) (hh : h < UINT_MOD) (hwh : w * h < UINT_MOD) :
    Loaded (grid_of w h black) := by
  refine ⟨rfl, hw, hh, hwh, ?_⟩
  simp only [grid_of, List.length_map, List.length_range]

/-- The foreground cells of a grid built by `grid_of` are the cells marked
black. -/
theorem foreground_grid_of (w h : Nat) (black : Nat → Nat → Bool) (hwh : w * h < UINT_MOD)
    {x y : Nat} (hx : x < w) (hy : y < h) :
    foreground (grid_of w h black) x y ↔ black x y = true := by
  have hlt : y * w + x < w * h := row_major_lt hx hy
  have hw : 0 < w := Nat.lt_of_le_of_lt (Nat.zero_le _) hx
  have hmod : (y * w + x) % w = x := by
    rw [Nat.add_comm, Nat.add_mul_mod_self_right, Nat.mod_eq_of_lt hx]
  have hdiv : (y * w + x) / w = y := by
    rw [Nat.add_comm, Nat.add_mul_div_right _ _ hw, Nat.div_eq_of_lt hx, Nat.zero_add]
  unfold foreground get_pixel
  simp only [grid_of]
  rw [Nat.mod_eq_of_lt (Nat.lt_trans hlt hwh), List.getD_eq_getElem?_getD, List.getElem?_map,
    List.getElem?_range hlt]
  simp only [Option.map_some', Option.getD_some, hmod, hdiv]
  cases black x y
  · simp only [Bool.false_eq_true, if_false, iff_false]
    decide
  · simp only [if_true]

/-- The border points of the 65537 x 2 image `wide_triangle`. -/
theorem scan_wide_triangle :
    scan wide_triangle = ⟨⟨65536, 0⟩, ⟨0, 1⟩, ⟨0, 1⟩, ⟨65535, 0⟩⟩ := by
  have hU := UINT_MOD_eq
  have hw : wide_triangle.width = 65537 := rfl
  have hh : wide_triangle.height = 2 := rfl
  have hfg : ∀ x y, x < 65537 → y < 2 →
      (foreground wide_triangle x y ↔
        ((x = 65535 ∧ y = 0) ∨ (x = 65536 ∧ y = 0) ∨ (x = 0 ∧ y = 1))) := by
    intro x y hx hy
    unfold wide_triangle
    rw [foreground_grid_of 65537 2 _ (by rw [hU]; norm_num) hx hy]
    simp only [Bool.or_eq_true, Bool.and_eq_true, beq_iff_eq]
    tauto
  have fA : foreground wide_triangle 65535 0 :=
    (hfg _ _ (by norm_num) (by norm_num)).mpr (Or.inl ⟨rfl, rfl⟩)
  have fB : foreground wide_triangle 65536 0 :=
    (hfg _ _ (by norm_num) (by norm_num)).mpr (Or.inr (Or.inl ⟨rfl, rfl⟩))
  have fC : foreground wide_triangle 0 1 :=
    (hfg _ _ (by norm_num) (by norm_num)).mpr (Or.inr (Or.inr ⟨rfl, rfl⟩))
  have e1 : (scan wide_triangle).max_x = ⟨65536, 0⟩ := by
    obtain ⟨hmax, hpt⟩ := scan_max_x wide_triangle
    have hge := hmax 65536 0 (by rw [hw]; norm_num) (by rw [hh]; norm_num) fB
    rcases hpt with h0 | ⟨⟨hx, hy⟩, hf, _⟩
    · rw [h0] at hge
      exact absurd hge (by norm_num)
    · rw [hw] at hx
      rw [hh] at hy
      have hin := (hfg _ _ hx hy).mp hf
      exact Point.eq_mk _ (by omega) (by omega)
  have e2 : (scan wide_triangle).min_x = ⟨0, 1⟩ := by
    rcases scan_min_x wide_triangle with ⟨_, hno⟩ | ⟨⟨hx, hy⟩, hf, hmin, _⟩
    · exact absurd fC (hno 0 1 (by rw [hw]; norm_num) (by rw [hh]; norm_num))
    · have hle := hmin 0 1 (by rw [hw]; norm_num) (by rw [hh]; norm_num) fC
      rw [hw] at hx
      rw [hh] at hy
      have hin := (hfg _ _ hx hy).mp hf
      exact Point.eq_mk _ (by omega) (by omega)
  have e3 : (scan wide_triangle).max_y = ⟨0, 1⟩ := by
    rcases scan_max_y wide_triangle with ⟨_, hno⟩ | ⟨⟨hx, hy⟩, hf, hlast⟩
    · exact absurd fC (hno 0 1 (by rw [hw]; norm_num) (by rw [hh]; norm_num))
    · have hle := hlast 0 1 (by rw [hw]; norm_num) (by rw [hh]; norm_num) fC
      rw [hw] at hx
      rw [hh] at hy
      have hin := (hfg _ _ hx hy).mp hf
      exact Point.eq_mk _ (by omega) (by omega)
  have e4 : (scan wide_triangle).min_y = ⟨65535, 0⟩ := by
    rcases scan_min_y wide_triangle with ⟨_, hno⟩ | ⟨⟨hx, hy⟩, hf, hfirst⟩
    · exact absurd fC (hno 0 1 (by rw [hw]; norm_num) (by rw [hh]; norm_num))
    · have hle := hfirst 65535 0 (by rw [hw]; norm_num) (by rw [hh]; norm_num) fA
      rw [hw] at hx
      rw [hh] at hy
      have hin := (hfg _ _ hx hy).mp hf
      exact Point.eq_mk _ (by omega) (by omega)
  cases hs : scan wide_triangle with
  | mk a b c d =>
    rw [hs] at e1 e2 e3 e4
    simp only at e1 e2 e3 e4
    rw [e1, e2, e3, e4]

/-- C10, the claim as stated, fails. The 65537 x 2 image with black pixels
at `(65535, 0)`, `(65536, 0)` and `(0, 1)` is loaded and reaches the
triangle branch, measured on `max_x = (65536, 0)`, `min_y = (65535, 0)` and
`min_x = (0, 1)`. The three radicands are 1, 1 and 4294836226, none zero:
the edge from `max_x` to `min_x` has `dx = 65536`, whose square wraps to 0.
The `int` arithmetic of both scalar products stays within `int`, and
`a_scalar_prod` is 65536, so the argument of the first `acos` is 65536 and
does not lie in `[0, 1]`. -/
theorem triangle_quotient_exceeds_one :
    Loaded wide_triangle ∧ some_pair_equal (scan wide_triangle) ∧
    measured_points (scan wide_triangle) = (⟨65536, 0⟩, ⟨65535, 0⟩, ⟨0, 1⟩) ∧
    distance_radicand ⟨65536, 0⟩ ⟨65535, 0⟩ = 1 ∧
    distance_radicand ⟨65536, 0⟩ ⟨0, 1⟩ = 1 ∧
    distance_radicand ⟨65535, 0⟩ ⟨0, 1⟩ = 4294836226 ∧
    scalar_prod_defined ⟨65536, 0⟩ ⟨0, 1⟩ ⟨65535, 0⟩ ∧
    scalar_prod_defined ⟨65535, 0⟩ ⟨0, 1⟩ ⟨65536, 0⟩ ∧
    scalar_prod ⟨65536, 0⟩ ⟨0, 1⟩ ⟨65535, 0⟩ = 65536 ∧
    (scalar_prod ⟨65536, 0⟩ ⟨0, 1⟩ ⟨65535, 0⟩ : ℝ) /
      (Real.sqrt (distance_radicand ⟨65536, 0⟩ ⟨65535, 0⟩) *
        Real.sqrt (distance_radicand ⟨65536, 0⟩ ⟨0, 1⟩)) = 65536 ∧
    ¬ ((scalar_prod ⟨65536, 0⟩ ⟨0, 1⟩ ⟨65535, 0⟩ : ℝ) /
      (Real.sqrt (distance_radicand ⟨65536, 0⟩ ⟨65535, 0⟩) *
        Real.sqrt (distance_radicand ⟨65536, 0⟩ ⟨0, 1⟩)) ≤ 1) := by
  have hU := UINT_MOD_eq
  have hs := scan_wide_triangle
  have r1 : distance_radicand ⟨65536, 0⟩ ⟨65535, 0⟩ = 1 := by decide
  have r2 : distance_radicand ⟨65536, 0⟩ ⟨0, 1⟩ = 1 := by decide
  have r3 : distance_radicand ⟨65535, 0⟩ ⟨0, 1⟩ = 4294836226 := by decide
  have s1 : scalar_prod ⟨65536, 0⟩ ⟨0, 1⟩ ⟨65535, 0⟩ = 65536 := by decide
  have hq : (scalar_prod ⟨65536, 0⟩ ⟨0, 1⟩ ⟨65535, 0⟩ : ℝ) /
      (Real.sqrt (distance_radicand ⟨65536, 0⟩ ⟨65535, 0⟩) *
        Real.sqrt (distance_radicand ⟨65536, 0⟩ ⟨0, 1⟩)) = 65536 := by
    rw [s1, r1, r2]
    norm_num
  refine ⟨loaded_grid_of _ _ _ (by rw [hU]; norm_num) (by rw [hU]; norm_num)
    (by rw [hU]; norm_num), ?_, ?_, r1, r2, r3, by decide, by decide, s1, hq, ?_⟩
  · rw [hs]; decide
  · rw [hs]; decide
  · rw [hq]; norm_num

/-- With all coordinates below `2 ^ 15`, the `int` arithmetic of the scalar
product is defined. -/
theorem scalar_prod_defined_small (o p q : Point)
    (ho : o.x < 2 ^ 15 ∧ o.y < 2 ^ 15) (hp : p.x < 2 ^ 15 ∧ p.y < 2 ^ 15)
    (hq : q.x < 2 ^ 15 ∧ q.y < 2 ^ 15) : scalar_prod_defined o p q := by
  obtain ⟨hox, hoy⟩ := ho
  obtain ⟨hpx, hpy⟩ := hp
  obtain ⟨hqx, hqy⟩ := hq
  norm_num at hox hoy hpx hpy hqx hqy
  unfold scalar_prod_defined INT_MAX
  rw [abs_diff_exact _ _ (by norm_num; omega) (by norm_num; omega),
    abs_diff_exact _ _ (by norm_num; omega) (by norm_num; omega),
    abs_diff_exact _ _ (by norm_num; omega) (by norm_num; omega),
    abs_diff_exact _ _ (by norm_num; omega) (by norm_num; omega)]
  have a2 : 0 ≤ |(q.x : Int) - o.x| := abs_nonneg _
  have a4 : 0 ≤ |(q.y : Int) - o.y| := abs_nonneg _
  have b1 : |(p.x : Int) - o.x| ≤ 32767 := by rw [abs_le]; omega
  have b2 : |(q.x : Int) - o.x| ≤ 32767 := by rw [abs_le]; omega
  have b3 : |(p.y : Int) - o.y| ≤ 32767 := by rw [abs_le]; omega
  have b4 : |(q.y : Int) - o.y| ≤ 32767 := by rw [abs_le]; omega
  have m1 : |(p.x : Int) - o.x| * |(q.x : Int) - o.x| ≤ 32767 * 32767 :=
    mul_le_mul b1 b2 a2 (by norm_num)
  have m2 : |(p.y : Int) - o.y| * |(q.y : Int) - o.y| ≤ 32767 * 32767 :=
    mul_le_mul b3 b4 a4 (by norm_num)
  refine ⟨?_, ?_, ?_, ?_, ?_, ?_, ?_⟩ <;> norm_num <;> omega

theorem sqrt_prod_pos (r1 r2 : Nat) (h1 : r1 ≠ 0) (h2 : r2 ≠ 0) :
    (0 : ℝ) < Real.sqrt r1 * Real.sqrt r2 :=
  mul_pos (Real.sqrt_pos.mpr (by exact_mod_cast Nat.pos_of_ne_zero h1))
    (Real.sqrt_pos.mpr (by exact_mod_cast Nat.pos_of_ne_zero h2))

/-- C10, amended. On a loaded grid with `width < 2 ^ 15` and
`height < 2 ^ 15` that reaches the triangle branch, measured on the points
`(p, q, m)` with the three radicands non-zero, `recognize_shape` prints the
angles `acos` of the quotients `A = a_scalar_prod / (side_len * a_side_len)`
and `B = b_scalar_prod / (side_len * b_side_len)`; the `int` arithmetic of
both scalar products is defined, the radicands are the exact squared
lengths, and, taken over the reals, both denominators are positive, `A` and
`B` lie in `[0, 1]`, both angles are at most `pi / 2` and their sum is at
most `pi`. -/
theorem triangle_angle_sum {F : Type} (fl : FloatOps F) (sr : Shape_recognizer)
    (p q m : Point) (hload : Loaded sr) (hw : sr.width < 2 ^ 15) (hh : sr.height < 2 ^ 15)
    (htri : some_pair_equal (scan sr))
    (hm : measured_points (scan sr) = (p, q, m))
    (hside : distance_radicand p q ≠ 0) (ha : distance_radicand p m ≠ 0)
    (hb : distance_radicand q m ≠ 0) :
    recognize_shape fl sr = some (Shape.Triangle
      (fl.sqrt (distance_radicand p q))
      (fl.acos (fl.div (fl.ofNat (scalar_prod p m q))
        (fl.mul (fl.sqrt (distance_radicand p q)) (fl.sqrt (distance_radicand p m)))))
      (fl.acos (fl.div (fl.ofNat (scalar_prod q m p))
        (fl.mul (fl.sqrt (distance_radicand p q)) (fl.sqrt (distance_radicand q m)))))) ∧
    (scalar_prod_defined p m q ∧ scalar_prod_defined q m p) ∧
    ((distance_radicand p q : Int) = exact_sq_dist p q ∧
      (distance_radicand p m : Int) = exact_sq_dist p m ∧
      (distance_radicand q m : Int) = exact_sq_dist q m) ∧
    (0 < Real.sqrt (distance_radicand p q) * Real.sqrt (distance_radicand p m) ∧
      0 < Real.sqrt (distance_radicand p q) * Real.sqrt (distance_radicand q m)) ∧
    (0 ≤ (scalar_prod p m q : ℝ) /
        (Real.sqrt (distance_radicand p q) * Real.sqrt (distance_radicand p m)) ∧
      (scalar_prod p m q : ℝ) /
        (Real.sqrt (distance_radicand p q) * Real.sqrt (distance_radicand p m)) ≤ 1) ∧
    (0 ≤ (scalar_prod q m p : ℝ) /
        (Real.sqrt (distance_radicand p q) * Real.sqrt (distance_radicand q m)) ∧
      (scalar_prod q m p : ℝ) /
        (Real.sqrt (distance_radicand p q) * Real.sqrt (distance_radicand q m)) ≤ 1) ∧
    Real.arccos ((scalar_prod p m q : ℝ) /
      (Real.sqrt (distance_radicand p q) * Real.sqrt (distance_radicand p m))) ≤ Real.pi / 2 ∧
    Real.arccos ((scalar_prod q m p : ℝ) /
      (Real.sqrt (distance_radicand p q) * Real.sqrt (distance_radicand q m))) ≤ Real.pi / 2 ∧
    Real.arccos ((scalar_prod p m q : ℝ) /
      (Real.sqrt (distance_radicand p q) * Real.sqrt (distance_radicand p m))) +
    Real.arccos ((scalar_prod q m p : ℝ) /
      (Real.sqrt (distance_radicand p q) * Real.sqrt (distance_radicand q m))) ≤ Real.pi := by
  have hA := quotient_nonneg (scalar_prod p m q) (distance_radicand p q) (distance_radicand p m)
  have hB := quotient_nonneg (scalar_prod q m p) (distance_radicand p q) (distance_radicand q m)
  have aA := Real.arccos_le_pi_div_two.mpr hA
  have aB := Real.arccos_le_pi_div_two.mpr hB
  obtain ⟨b1, b2, b3⟩ := measured_points_le sr
  rw [hm] at b1 b2 b3
  simp only at b1 b2 b3
  have sp : p.x < 2 ^ 15 ∧ p.y < 2 ^ 15 := ⟨lt_of_le_of_lt b1.1 hw, lt_of_le_of_lt b1.2 hh⟩
  have sq : q.x < 2 ^ 15 ∧ q.y < 2 ^ 15 := ⟨lt_of_le_of_lt b2.1 hw, lt_of_le_of_lt b2.2 hh⟩
  have sm : m.x < 2 ^ 15 ∧ m.y < 2 ^ 15 := ⟨lt_of_le_of_lt b3.1 hw, lt_of_le_of_lt b3.2 hh⟩
  have cp : p.x ≤ 2 ^ 15 ∧ p.y ≤ 2 ^ 15 := ⟨le_of_lt sp.1, le_of_lt sp.2⟩
  have cq : q.x ≤ 2 ^ 15 ∧ q.y ≤ 2 ^ 15 := ⟨le_of_lt sq.1, le_of_lt sq.2⟩
  have cm : m.x ≤ 2 ^ 15 ∧ m.y ≤ 2 ^ 15 := ⟨le_of_lt sm.1, le_of_lt sm.2⟩
  have lA : (scalar_prod p m q : ℝ) /
      (Real.sqrt (distance_radicand p q) * Real.sqrt (distance_radicand p m)) ≤ 1 := by
    apply quotient_le_one
    rw [Nat.mul_comm]
    exact scalar_prod_sq_le p m q cp cm cq
  have lB : (scalar_prod q m p : ℝ) /
      (Real.sqrt (distance_radicand p q) * Real.sqrt (distance_radicand q m)) ≤ 1 := by
    apply quotient_le_one
    rw [Nat.mul_comm, distance_radicand_comm_small p q cp cq]
    exact scalar_prod_sq_le q m p cq cm cp
  refine ⟨?_, ⟨scalar_prod_defined_small p m q sp sm sq, scalar_prod_defined_small q m p sq sm sp⟩,
    ⟨distance_radicand_exact p q cp cq, distance_radicand_exact p m cp cm,
      distance_radicand_exact q m cq cm⟩,
    ⟨sqrt_prod_pos _ _ hside ha, sqrt_prod_pos _ _ hside hb⟩,
    ⟨hA, lA⟩, ⟨hB, lB⟩, aA, aB, by linarith⟩
  simp only [recognize_shape, hload.1, classify, htri, hm, triangle_of, distance_between,
    Bool.false_eq_true, if_false, if_true]

/-- Witness of the amended C10 on the 3 x 3 image with black pixels at
`(1, 0)`, `(2, 1)` and `(0, 2)`. -/
theorem triangle_angle_sum_witness :
    Loaded three_dots ∧ three_dots.width < 2 ^ 15 ∧ three_dots.height < 2 ^ 15 ∧
    some_pair_equal (scan three_dots) ∧
    measured_points (scan three_dots) = (⟨2, 1⟩, ⟨1, 0⟩, ⟨0, 2⟩) ∧
    distance_radicand ⟨2, 1⟩ ⟨1, 0⟩ ≠ 0 ∧ distance_radicand ⟨2, 1⟩ ⟨0, 2⟩ ≠ 0 ∧
    distance_radicand ⟨1, 0⟩ ⟨0, 2⟩ ≠ 0 ∧
    Real.arccos ((scalar_prod ⟨2, 1⟩ ⟨0, 2⟩ ⟨1, 0⟩ : ℝ) /
      (Real.sqrt (distance_radicand ⟨2, 1⟩ ⟨1, 0⟩) *
        Real.sqrt (distance_radicand ⟨2, 1⟩ ⟨0, 2⟩))) +
    Real.arccos ((scalar_prod ⟨1, 0⟩ ⟨0, 2⟩ ⟨2, 1⟩ : ℝ) /
      (Real.sqrt (distance_radicand ⟨2, 1⟩ ⟨1, 0⟩) *
        Real.sqrt (distance_radicand ⟨1, 0⟩ ⟨0, 2⟩))) ≤ Real.pi :=
  ⟨by decide, by decide, by decide, by decide, by decide, by decide, by decide, by decide,
    (triangle_angle_sum symbolic three_dots ⟨2, 1⟩ ⟨1, 0⟩ ⟨0, 2⟩ (by decide) (by decide)
      (by decide) (by decide) (by decide) (by decide) (by decide)
      (by decide)).2.2.2.2.2.2.2.2⟩

end ShapeRecognizer
